import Mathlib

/-!
# gdal_combine: the scanline overlay and combination registry

A shallow embedding of `src/gdal_combine.cpp`: the integer formatter `itoa_`,
the key construction loop, the lookup / identifier assignment / insert step on
the hash set, the row-by-row scan, the CSV visitor `WriteDataToCSVForEach`,
the progress fraction, the range-overflow warning and the option loop of `main`.

Conventions.
* C strings are `List Char` (the text before the terminator).
* `unsigned int` values are naturals reduced modulo `2^32`, `unsigned long long`
  values are naturals reduced modulo `2^64`, `int` values are integers and the
  arithmetic of `itoa_` is wrapped to 32 bits.
* `double` samples are values of an arbitrary type `R`; `sprintf(szTmp, "%.f", _)`
  is a function `sprintfF : R → List Char` supplied from outside.
* `szTmp` has 16 bytes and the key buffer `nInputFiles * 16` bytes. A write that
  overruns either has no defined result: `formatSample`, `strcat`, `encodeKey`
  and the scan built on them return `none` there.
* The GDAL hash set (`CPLHashSet`) is a list of records; `CPLHashSetInsert`
  replaces the element that compares equal, or adds the new element.
-/

namespace GdalCombine

/-! ## Data model -/

/-- The struct `Combination`: `unsigned int nID`, `unsigned long long nCount`,
`char *pszCombination`. -/
structure Combination where
  nID : Nat
  nCount : Nat
  pszCombination : List Char
deriving DecidableEq, Repr

/-- Number of values of an `unsigned int` (32 bits). -/
def UINT_RANGE : Nat := 4294967296

/-- Number of values of an `unsigned long long` (64 bits). -/
def ULLONG_RANGE : Nat := 18446744073709551616

/-- `CombinationEqualFunc`: `strcmp(a->pszCombination, b->pszCombination) == 0`. -/
def CombinationEqualFunc (elt1 elt2 : Combination) : Bool :=
  decide (elt1.pszCombination = elt2.pszCombination)

/-- The hash set `phAllCombination`, as the list of the records it holds. -/
abbrev CPLHashSet := List Combination

/-- The GDAL library function `CPLHashSetLookup`: the element of the set that
compares equal to `elt` under `CombinationEqualFunc`, if there is one. -/
def CPLHashSetLookup (set : CPLHashSet) (elt : Combination) : Option Combination :=
  set.find? (fun e => CombinationEqualFunc e elt)

/-- The GDAL library function `CPLHashSetInsert`: an element comparing equal to
`elt` is replaced by `elt` (the old one is freed); otherwise `elt` is added to
the set. The order in which the set is later visited is not specified by the
library; the list keeps the records in order of arrival. -/
def CPLHashSetInsert : CPLHashSet → Combination → CPLHashSet
  | [], elt => [elt]
  | e :: rest, elt =>
    if CombinationEqualFunc e elt then elt :: rest else e :: CPLHashSetInsert rest elt

/-- The keys held by a hash set, in list order. -/
def keysOf (set : CPLHashSet) : List (List Char) :=
  set.map Combination.pszCombination

/-- The part of the program state the registry step works on: the hash set
and the identifier counter `nCmbID`. -/
structure Registry where
  phAllCombination : CPLHashSet
  nCmbID : Nat
deriving DecidableEq, Repr

/-- Lines 385-398 of `main`: look the key up; on a hit copy the identifier and
take the count plus one, on a miss take `nCmbID++` and count 1; insert the new
record. Returns the new state and `cmb->nID`. -/
def lookupOrInsert (st : Registry) (key : List Char) : Registry × Nat :=
  match CPLHashSetLookup st.phAllCombination ⟨0, 0, key⟩ with
  | some elt =>
    let cmb : Combination := ⟨elt.nID, (elt.nCount + 1) % ULLONG_RANGE, key⟩
    (⟨CPLHashSetInsert st.phAllCombination cmb, st.nCmbID⟩, cmb.nID)
  | none =>
    let cmb : Combination := ⟨st.nCmbID, 1, key⟩
    (⟨CPLHashSetInsert st.phAllCombination cmb, (st.nCmbID + 1) % UINT_RANGE⟩, cmb.nID)

/-- The value `nCmbID = atoi(argv[++i])` stores in the `unsigned int` counter. -/
def initidOfAtoi (n : Int) : Nat := (n % 4294967296).toNat

/-! ## `itoa_` -/

/-- Wrap an integer to the range of a 32-bit `int`. -/
def wrapInt32 (z : Int) : Int := (z + 2147483648) % 4294967296 - 2147483648

/-- The digit table indexed by `35 + remainder`. -/
def itoaTable : List Char :=
  "zyxwvutsrqponmlkjihgfedcba9876543210123456789abcdefghijklmnopqrstuvwxyz".data

/-- The `do ... while (value)` loop of `itoa_`: the characters written through
`ptr`, in the order written, and the last `tmp_value`. The first argument
bounds the number of iterations. -/
def itoaLoop (base : Int) : Nat → Int → List Char × Int
  | 0, value => ([], value)
  | fuel + 1, value =>
    let tmp_value := value
    let value := wrapInt32 (Int.tdiv value base)
    let c := itoaTable.getD (35 + wrapInt32 (tmp_value - wrapInt32 (value * base))).toNat 'z'
    if value ≠ 0 then
      let r := itoaLoop base fuel value
      (c :: r.1, r.2)
    else ([c], tmp_value)

/-- The function `itoa_(value, result, base)`: the text left in `result`. The
loop is given `|value| + 1` iterations, which it never uses up since `|value|`
strictly decreases (`itoaLoop_spec`). -/
def itoa_ (value : Int) (base : Int) : List Char :=
  if base < 2 ∨ base > 36 then []
  else
    let r := itoaLoop base (value.natAbs + 1) value
    let written := if r.2 < 0 then r.1 ++ ['-'] else r.1
    written.reverse

/-! ## Key construction -/

/-- One sample of a pixel column: the `int` read into `panScanline` or the
`double` read into `padfScanline`. -/
inductive Sample (R : Type) where
  | int (v : Int)
  | real (d : R)

/-- The text a sample is formatted to: what `itoa_(v, szTmp, 10)` writes for an
integer sample and what `sprintf(szTmp, "%.f", d)` writes for a real one, the
size of `szTmp` aside. -/
def sampleText {R : Type} (sprintfF : R → List Char) : Sample R → List Char
  | Sample.int v => itoa_ v 10
  | Sample.real d => sprintfF d

/-- Size in bytes of the scratch buffer `char szTmp[16]`. -/
def SZTMP_SIZE : Nat := 16

/-- Lines 370-377: the content of `szTmp` after the sample is formatted into
it. A text that with its terminator needs more than the 16 bytes of `szTmp`
overruns the buffer; the run then has no defined result (`none`). -/
def formatSample {R : Type} (sprintfF : R → List Char) (s : Sample R) : Option (List Char) :=
  if (sampleText sprintfF s).length + 1 ≤ SZTMP_SIZE then some (sampleText sprintfF s)
  else none

/-- The C function `strcat(dest, src)` on a destination buffer of `capacity`
bytes: the new content of `dest`, or no defined result (`none`) when the
content with its terminator does not fit in the buffer. -/
def strcat (capacity : Nat) (dest src : List Char) : Option (List Char) :=
  if dest.length + src.length + 1 ≤ capacity then some (dest ++ src) else none

/-- Lines 361-383: the key `cmb->pszCombination` built for one tuple of
samples, in the buffer of `nInputFiles * 16` bytes allocated for it: for each
source in turn format the sample into `szTmp`, `strcat` it to the key, then
`strcat` a comma when `i < nInputFiles - 1`. `none` when a buffer is overrun. -/
def encodeKey {R : Type} (sprintfF : R → List Char) (samples : List (Sample R)) :
    Option (List Char) :=
  (List.range samples.length).foldlM
    (fun psz i =>
      match samples.get? i with
      | none => some psz
      | some s =>
        match formatSample sprintfF s with
        | none => none
        | some szTmp =>
          match strcat (samples.length * 16) psz szTmp with
          | none => none
          | some psz =>
            if i < samples.length - 1 then strcat (samples.length * 16) psz [',']
            else some psz)
    []

/-! ## The scan -/

/-- The struct `InputRaster` as the scan uses it: the kind flag and the band
read as `GDT_Int32` or as `GDT_Float64`, by row `nYoff` and column `nXoff`. -/
structure InputRaster (R : Type) where
  bIsIntDataType : Bool
  panBand : Nat → Nat → Int
  padfBand : Nat → Nat → R

/-- The sample of one source at row `nYoff`, column `nXoff`. -/
def sampleAt {R : Type} (r : InputRaster R) (nYoff nXoff : Nat) : Sample R :=
  if r.bIsIntDataType then Sample.int (r.panBand nYoff nXoff)
  else Sample.real (r.padfBand nYoff nXoff)

/-- The key built for the pixel column at row `nYoff`, column `nXoff`; `none`
when building it overruns a buffer. -/
def pixelKey {R : Type} (sprintfF : R → List Char) (rasters : List (InputRaster R))
    (nYoff nXoff : Nat) : Option (List Char) :=
  encodeKey sprintfF (rasters.map (fun r => sampleAt r nYoff nXoff))

/-- State of the scan loop: the registry, the row buffer `panOutline` and the
rows handed to `GDALRasterIO(hOutBand, GF_Write, ...)` so far, in order. -/
structure ScanState where
  reg : Registry
  panOutline : Nat → Nat
  outRows : List (List Nat)

/-- Body of the column loop (lines 360-398) at column `nXoff` of row `nYoff`;
`bOut` is `pszOutRaster != NULL`. `none` when building the key overruns a
buffer. -/
def pixelStep {R : Type} (sprintfF : R → List Char) (rasters : List (InputRaster R))
    (bOut : Bool) (nYoff : Nat) (st : ScanState) (nXoff : Nat) : Option ScanState :=
  match pixelKey sprintfF rasters nYoff nXoff with
  | none => none
  | some key =>
    let r := lookupOrInsert st.reg key
    some { st with
      reg := r.1
      panOutline := if bOut then Function.update st.panOutline nXoff r.2 else st.panOutline }

/-- Body of the row loop (lines 348-410) at row `nYoff`: all columns, then the
row write when an output raster is configured. -/
def rowStep {R : Type} (sprintfF : R → List Char) (rasters : List (InputRaster R))
    (bOut : Bool) (nXSize : Nat) (st : ScanState) (nYoff : Nat) : Option ScanState :=
  match (List.range nXSize).foldlM (pixelStep sprintfF rasters bOut nYoff) st with
  | none => none
  | some st =>
    some (if bOut then
        { st with outRows := st.outRows ++ [(List.range nXSize).map st.panOutline] }
      else st)

/-- The scan loop of `main`, from an empty hash set and the initial counter:
the state after the last row, or `none` when some pixel overruns a buffer. -/
def scan {R : Type} (sprintfF : R → List Char) (rasters : List (InputRaster R))
    (bOut : Bool) (nXSize nYSize : Nat) (initid : Nat) : Option ScanState :=
  (List.range nYSize).foldlM (rowStep sprintfF rasters bOut nXSize)
    ⟨⟨[], initid⟩, fun _ => 0, []⟩

/-! ## CSV export -/

/-- Read a text of decimal digits as a natural number. -/
def parseNat (cs : List Char) : Nat :=
  cs.foldl (fun acc c => 10 * acc + (c.toNat - 48)) 0

/-- The conversions `%u` and `%llu` of `VSIFPrintf`: the decimal text of an
unsigned value. -/
def printfU (n : Nat) : List Char := Nat.toDigits 10 n

/-- The GDAL macro `EQUAL(a, b)` (`strcasecmp(a, b) == 0`): the two strings
compare equal ignoring ASCII case. -/
def EQUAL (a b : List Char) : Bool :=
  decide (a.map Char.toLower = b.map Char.toLower)

/-- The C function `strlen`. -/
def strlen (s : List Char) : Nat := s.length

/-- The visitor `WriteDataToCSVForEach`: the record as the visitor leaves it and
the text it prints. `&psz[strlen(psz)]` is the string that starts at offset
`strlen(psz)`; `psz[strlen(psz)-1] = 0` cuts the string at that offset. -/
def WriteDataToCSVForEach (cmb : Combination) : Combination × List Char :=
  let cmb : Combination :=
    if EQUAL (cmb.pszCombination.drop (strlen cmb.pszCombination)) [','] then
      { cmb with pszCombination := cmb.pszCombination.take (strlen cmb.pszCombination - 1) }
    else cmb
  (cmb, printfU cmb.nID ++ [','] ++ printfU cmb.nCount ++ [','] ++ cmb.pszCombination ++ ['\n'])

/-- The GDAL library function `CPLHashSetForeach`, called as
`CPLHashSetForeach(phAllCombination, WriteDataToCSVForEach, fp)`: the visitor
runs once on every record; the text printed is appended to `fp`. -/
def CPLHashSetForeach (set : CPLHashSet) (fp : List Char) : CPLHashSet × List Char :=
  set.foldl
    (fun acc elt =>
      let r := WriteDataToCSVForEach elt
      (acc.1 ++ [r.1], acc.2 ++ r.2))
    ([], fp)

/-- The data line the specification gives for a record:
`<nID>,<nCount>,<pszCombination>`. -/
def csvLine (cmb : Combination) : List Char :=
  printfU cmb.nID ++ [','] ++ printfU cmb.nCount ++ [','] ++ cmb.pszCombination

/-- Parse one data line: split on `,`, read the first two fields as numbers
and join the remaining fields again. -/
def parseLine (line : List Char) : Option (Nat × Nat × List Char) :=
  match line.splitOn ',' with
  | a :: b :: rest => some (parseNat a, parseNat b, [','].intercalate rest)
  | _ => none

/-- Parse the data part of the CSV text: its lines, each parsed by `parseLine`. -/
def parseData (text : List Char) : List (Option (Nat × Nat × List Char)) :=
  ((text.splitOn '\n').dropLast).map parseLine

/-! ## Progress and the overflow warning -/

/-- The divisor `nYSize - 1.0` of the progress fraction. -/
def progressDivisor (nYSize : Nat) : ℚ := (nYSize : ℚ) - 1

/-- The argument `nYoff / (nYSize-1.0)` handed to `pfnProgress` after row
`nYoff`. The `double` division is taken over the rationals; a division by zero
has no number as its value (`none`). -/
def progressArg (nYoff nYSize : Nat) : Option ℚ :=
  if progressDivisor nYSize = 0 then none
  else some ((nYoff : ℚ) / progressDivisor nYSize)

/-- The output sample types `-ot` accepts. -/
inductive GDALDataType where
  | GDT_Byte
  | GDT_UInt16
  | GDT_UInt32
deriving DecidableEq, Repr

/-- The GDAL function `GDALGetDataTypeSize`: the size of a sample in bits. -/
def GDALGetDataTypeSize : GDALDataType → Nat
  | GDALDataType.GDT_Byte => 8
  | GDALDataType.GDT_UInt16 => 16
  | GDALDataType.GDT_UInt32 => 32

/-- The C expression `1 << n` on `int`: it has a value only when `2^n` fits in
a 32-bit `int`; shifting by the width of the type or more is undefined. -/
def shiftLeftOne (n : Nat) : Option Int :=
  if n < 31 then some (2 ^ n) else none

/-- Lines 412-422 of `main`: whether the range warning is printed. `bOut` is
`pszOutRaster != NULL`. `none` stands for the undefined comparison against
`1 << 32`. -/
def overflowWarning (bOut bQuiet : Bool) (eOutDataType : GDALDataType) (nCmbID : Nat) :
    Option Bool :=
  if bOut && !bQuiet then
    match shiftLeftOne (GDALGetDataTypeSize eOutDataType) with
    | some limit => some (decide (nCmbID ≥ (limit % 4294967296).toNat))
    | none => none
  else some false

/-! ## The option loop -/

/-- The function `add_file_to_list`: the list of input file names with
`filename` appended. -/
def add_file_to_list (filename : List Char) (ppszInputFilenames : List (List Char)) :
    List (List Char) :=
  ppszInputFilenames ++ [filename]

/-- The variables of `main` the option loop assigns. -/
structure Options where
  pszOutRaster : Option (List Char)
  pszOutFormat : List Char
  eOutDataType : GDALDataType
  nCmbID : Nat
  pszCSVFile : Option (List Char)
  papszCreateOptions : List (List Char)
  bQuiet : Bool
  ppszInputFilenames : List (List Char)
deriving DecidableEq, Repr

/-- The values the variables have before the option loop. -/
def initialOptions : Options :=
  { pszOutRaster := none
    pszOutFormat := "GTiff".data
    eOutDataType := GDALDataType.GDT_UInt16
    nCmbID := 0
    pszCSVFile := none
    papszCreateOptions := []
    bQuiet := false
    ppszInputFilenames := [] }

/-- One pass through the body of the option loop (lines 166-228) at `argv[i]`.
`next` is `argv[i+1]` when `i < argc-1` and `none` otherwise. The result is the
exit code when the body calls `exit`, else the new variables and whether the
body consumed `argv[i+1]` (`++i`). `atoi` is the C library function;
`fileLines path` is the lines `CPLReadLine` returns for the file `VSIFOpen`
opens at `path`, `none` when it cannot be opened. -/
def optionStep (atoi : List Char → Int) (fileLines : List Char → Option (List (List Char)))
    (arg : List Char) (next : Option (List Char)) (o : Options) :
    Except Nat (Options × Bool) :=
  match next with
  | some v =>
    if EQUAL arg "-o".data then .ok ({ o with pszOutRaster := some v }, true)
    else if EQUAL arg "-of".data then .ok ({ o with pszOutFormat := v }, true)
    else if EQUAL arg "-ot".data then
      if EQUAL v "Byte".data then .ok ({ o with eOutDataType := GDALDataType.GDT_Byte }, true)
      else if EQUAL v "UInt16".data then
        .ok ({ o with eOutDataType := GDALDataType.GDT_UInt16 }, true)
      else if EQUAL v "UInt32".data then
        .ok ({ o with eOutDataType := GDALDataType.GDT_UInt32 }, true)
      else .error 1
    else if EQUAL arg "-initid".data then .ok ({ o with nCmbID := initidOfAtoi (atoi v) }, true)
    else if EQUAL arg "-csv".data then .ok ({ o with pszCSVFile := some v }, true)
    else if EQUAL arg "-co".data then
      .ok ({ o with papszCreateOptions := o.papszCreateOptions ++ [v] }, true)
    else if EQUAL arg "-q".data || EQUAL arg "-quiet".data then
      .ok ({ o with bQuiet := true }, false)
    else if arg.head? = some '-' then .error 1
    else if EQUAL arg "-input_file_list".data then
      match fileLines v with
      | some lines =>
        .ok ({ o with ppszInputFilenames :=
                lines.foldl (fun names l => add_file_to_list l names) o.ppszInputFilenames },
             true)
      | none => .ok (o, true)
    else .ok ({ o with ppszInputFilenames := add_file_to_list arg o.ppszInputFilenames }, false)
  | none =>
    if EQUAL arg "-q".data || EQUAL arg "-quiet".data then
      .ok ({ o with bQuiet := true }, false)
    else if arg.head? = some '-' then .error 1
    else .ok ({ o with ppszInputFilenames := add_file_to_list arg o.ppszInputFilenames }, false)

/-- The option loop `for(i = 1; i < argc; i++)` over `argv[1..]`: the exit code
when an iteration calls `exit`, else the variables after the loop. -/
def optionLoop (atoi : List Char → Int) (fileLines : List Char → Option (List (List Char))) :
    List (List Char) → Options → Except Nat Options
  | [], o => .ok o
  | [arg], o =>
    match optionStep atoi fileLines arg none o with
    | .error code => .error code
    | .ok r => .ok r.1
  | arg :: v :: rest, o =>
    match optionStep atoi fileLines arg (some v) o with
    | .error code => .error code
    | .ok (o2, true) => optionLoop atoi fileLines rest o2
    | .ok (o2, false) => optionLoop atoi fileLines (v :: rest) o2

/-! ## The same loops on texts, buffer sizes aside

The functions of this section follow the same lines of the source as
`encodeKey`, `pixelStep`, `rowStep` and `scan`, but work on the texts alone and
never fail. They serve the proofs: a run that overruns no buffer computes what
they compute (`encodeKey_of_fits`, `scan_of_fits`). -/

/-- The `strcat` loop of lines 367-383 over texts `szTmp i`, `i < nInputFiles`:
append the text, then a comma when `i < nInputFiles - 1`. -/
def strcatLoop (szTmp : Nat → List Char) (nInputFiles : Nat) : List Char :=
  (List.range nInputFiles).foldl
    (fun psz i =>
      let psz := psz ++ szTmp i
      if i < nInputFiles - 1 then psz ++ [','] else psz)
    []

/-- The text of the key for one tuple of samples. -/
def keyText {R : Type} (sprintfF : R → List Char) (samples : List (Sample R)) : List Char :=
  strcatLoop
    (fun i => match samples.get? i with
      | some s => sampleText sprintfF s
      | none => [])
    samples.length

/-- The `strcat` loop of lines 367-383 with every content of `pszCombination`
recorded: the final content, and the list of the contents at the start and
after each `strcat` (after the text of source `i`, then after the comma when
one is appended). -/
def strcatTrace (szTmp : Nat → List Char) (nInputFiles : Nat) :
    List Char × List (List Char) :=
  (List.range nInputFiles).foldl
    (fun acc i =>
      let psz1 := acc.1 ++ szTmp i
      let psz2 := if i < nInputFiles - 1 then psz1 ++ [','] else psz1
      (psz2, acc.2 ++ [psz1, psz2]))
    ([], [[]])

/-- The recorded run of the key construction for one tuple of samples. -/
def encodeKeyTrace {R : Type} (sprintfF : R → List Char) (samples : List (Sample R)) :
    List Char × List (List Char) :=
  strcatTrace
    (fun i => match samples.get? i with
      | some s => sampleText sprintfF s
      | none => [])
    samples.length

/-- The text of the key of the pixel column at row `nYoff`, column `nXoff`. -/
def pixelKeyText {R : Type} (sprintfF : R → List Char) (rasters : List (InputRaster R))
    (nYoff nXoff : Nat) : List Char :=
  keyText sprintfF (rasters.map (fun r => sampleAt r nYoff nXoff))

/-- The body of the column loop on the text of the key. -/
def pixelStepText {R : Type} (sprintfF : R → List Char) (rasters : List (InputRaster R))
    (bOut : Bool) (nYoff : Nat) (st : ScanState) (nXoff : Nat) : ScanState :=
  let r := lookupOrInsert st.reg (pixelKeyText sprintfF rasters nYoff nXoff)
  { st with
    reg := r.1
    panOutline := if bOut then Function.update st.panOutline nXoff r.2 else st.panOutline }

/-- The body of the row loop on the texts of the keys. -/
def rowStepText {R : Type} (sprintfF : R → List Char) (rasters : List (InputRaster R))
    (bOut : Bool) (nXSize : Nat) (st : ScanState) (nYoff : Nat) : ScanState :=
  let st := (List.range nXSize).foldl (pixelStepText sprintfF rasters bOut nYoff) st
  if bOut then { st with outRows := st.outRows ++ [(List.range nXSize).map st.panOutline] }
  else st

/-- The scan loop on the texts of the keys. -/
def scanText {R : Type} (sprintfF : R → List Char) (rasters : List (InputRaster R))
    (bOut : Bool) (nXSize nYSize : Nat) (initid : Nat) : ScanState :=
  (List.range nYSize).foldl (rowStepText sprintfF rasters bOut nXSize)
    ⟨⟨[], initid⟩, fun _ => 0, []⟩

/-- Every sample of the grid is formatted to a text that fits in `szTmp`. -/
def gridFits {R : Type} (sprintfF : R → List Char) (rasters : List (InputRaster R))
    (nXSize nYSize : Nat) : Prop :=
  ∀ y, y < nYSize → ∀ x, x < nXSize → ∀ r ∈ rasters,
    (sampleText sprintfF (sampleAt r y x)).length + 1 ≤ SZTMP_SIZE

/-! ## Notions used in the statements -/

/-- An integer source whose row is `0, 1, ..., n - 1`. -/
def rasterOfRange (n : Nat) : InputRaster Unit :=
  ⟨true, fun _ x => if x < n then (x : Int) else 0, fun _ _ => ()⟩

/-- The keys of the grid in scan order: rows in increasing order, columns in
increasing order within a row. -/
def scanKeys {R : Type} (sprintfF : R → List Char) (rasters : List (InputRaster R))
    (nXSize nYSize : Nat) : List (List Char) :=
  (List.range nYSize).flatMap (fun y => (List.range nXSize).map (fun x => pixelKeyText sprintfF rasters y x))

/-- The registry step run over a sequence of keys. -/
def registerKeys (st : Registry) (keys : List (List Char)) : Registry :=
  keys.foldl (fun s k => (lookupOrInsert s k).1) st

/-- Position of the first occurrence of `k` in a sequence of keys (the length
of the sequence when `k` does not occur). -/
def firstOccurrence (k : List Char) : List (List Char) → Nat
  | [] => 0
  | a :: t => if a = k then 0 else firstOccurrence k t + 1

/-- An integer source whose every row is `row` (columns past its end read 0). -/
def rasterOfRow (row : List Int) : InputRaster Unit :=
  ⟨true, fun _ x => row.getD x 0, fun _ _ => ()⟩

/-- A formatter for the sample type `Unit`, which no integer source consults. -/
def noReal : Unit → List Char := fun _ => []

/-- The plain decimal text of an integer, in the words of the specification:
an optional leading `-`, then the decimal digits of the magnitude as the
standard renderer `Nat.toDigits 10` gives them. -/
def decimalText (v : Int) : List Char :=
  (if v < 0 then ['-'] else []) ++ Nat.toDigits 10 v.natAbs

/-- The key in the words of the specification: the decimal texts of the samples
joined with `,` in source order. -/
def joinedDecimalKey (vs : List Int) : List Char :=
  [','].intercalate (vs.map decimalText)

/-- A character is one of the ten decimal digits. -/
def isDecimalDigit (c : Char) : Bool :=
  decide (c ∈ ['0', '1', '2', '3', '4', '5', '6', '7', '8', '9'])

/-! # Properties -/

/-! ## The hash set as a keyed collection -/

theorem lookup_eq_none {set : CPLHashSet} {elt : Combination}
    (h : ∀ r ∈ set, r.pszCombination ≠ elt.pszCombination) :
    CPLHashSetLookup set elt = none := by
  unfold CPLHashSetLookup
  rw [List.find?_eq_none]
  intro r hr
  simpa [CombinationEqualFunc] using h r hr

theorem lookup_eq_some {set : CPLHashSet} {r elt : Combination}
    (hnd : (keysOf set).Nodup) (hr : r ∈ set)
    (hk : r.pszCombination = elt.pszCombination) :
    CPLHashSetLookup set elt = some r := by
  induction set with
  | nil => cases hr
  | cons a t ih =>
    have hnd2 : a.pszCombination ∉ keysOf t ∧ (keysOf t).Nodup := by
      simpa [keysOf] using hnd
    rcases List.mem_cons.1 hr with rfl | hrt
    · simp [CPLHashSetLookup, List.find?_cons, CombinationEqualFunc, hk]
    · have hne : a.pszCombination ≠ elt.pszCombination := by
        intro hae
        apply hnd2.1
        rw [hae, ← hk]
        exact List.mem_map_of_mem _ hrt
      have := ih hnd2.2 hrt
      simpa [CPLHashSetLookup, List.find?_cons, CombinationEqualFunc, hne] using this

theorem keysOf_insert_mem {set : CPLHashSet} {cmb : Combination}
    (h : cmb.pszCombination ∈ keysOf set) :
    keysOf (CPLHashSetInsert set cmb) = keysOf set := by
  induction set with
  | nil => simp [keysOf] at h
  | cons a t ih =>
    by_cases ha : a.pszCombination = cmb.pszCombination
    · simp [CPLHashSetInsert, CombinationEqualFunc, ha, keysOf]
    · have ht : cmb.pszCombination ∈ keysOf t := by
        have : cmb.pszCombination = a.pszCombination ∨ cmb.pszCombination ∈ keysOf t := by
          simpa [keysOf] using h
        rcases this with h1 | h1
        · exact absurd h1.symm ha
        · exact h1
      have := ih ht
      simp only [keysOf] at this
      simp [CPLHashSetInsert, CombinationEqualFunc, ha, keysOf, this]

theorem insert_not_mem {set : CPLHashSet} {cmb : Combination}
    (h : cmb.pszCombination ∉ keysOf set) :
    CPLHashSetInsert set cmb = set ++ [cmb] := by
  induction set with
  | nil => rfl
  | cons a t ih =>
    have h2 : ¬ cmb.pszCombination = a.pszCombination ∧ cmb.pszCombination ∉ keysOf t := by
      simpa [keysOf] using h
    have ha : a.pszCombination ≠ cmb.pszCombination := fun e => h2.1 e.symm
    simp [CPLHashSetInsert, CombinationEqualFunc, ha, ih h2.2]

theorem insert_filter_ne (set : CPLHashSet) (cmb : Combination) :
    (CPLHashSetInsert set cmb).filter (fun r => decide (r.pszCombination ≠ cmb.pszCombination))
      = set.filter (fun r => decide (r.pszCombination ≠ cmb.pszCombination)) := by
  induction set with
  | nil => simp [CPLHashSetInsert]
  | cons a t ih =>
    by_cases ha : a.pszCombination = cmb.pszCombination
    · simp [CPLHashSetInsert, CombinationEqualFunc, ha]
    · simp only [CPLHashSetInsert, CombinationEqualFunc, ha, decide_False, Bool.false_eq_true,
        if_false, List.filter_cons, ih]

theorem insert_filter_eq {set : CPLHashSet} (cmb : Combination)
    (hnd : (keysOf set).Nodup) :
    (CPLHashSetInsert set cmb).filter (fun r => decide (r.pszCombination = cmb.pszCombination))
      = [cmb] := by
  induction set with
  | nil => simp [CPLHashSetInsert]
  | cons a t ih =>
    have hnd2 : a.pszCombination ∉ keysOf t ∧ (keysOf t).Nodup := by
      simpa [keysOf] using hnd
    by_cases ha : a.pszCombination = cmb.pszCombination
    · have : ∀ r ∈ t, ¬ r.pszCombination = cmb.pszCombination := by
        intro r hr e
        apply hnd2.1
        rw [ha, ← e]
        exact List.mem_map_of_mem _ hr
      simp only [CPLHashSetInsert, CombinationEqualFunc, ha, decide_True, if_true,
        List.filter_cons]
      rw [List.filter_eq_nil_iff.2]
      intro r hr
      simpa using this r hr
    · simp [CPLHashSetInsert, CombinationEqualFunc, ha, List.filter_cons, ih hnd2.2]

theorem keysOf_insert_nodup {set : CPLHashSet} (cmb : Combination)
    (hnd : (keysOf set).Nodup) : (keysOf (CPLHashSetInsert set cmb)).Nodup := by
  by_cases h : cmb.pszCombination ∈ keysOf set
  · rw [keysOf_insert_mem h]; exact hnd
  · rw [insert_not_mem h]
    simp only [keysOf, List.map_append, List.map_cons, List.map_nil]
    rw [List.nodup_append]
    refine ⟨hnd, List.nodup_singleton _, ?_⟩
    intro a ha hb
    simp only [List.mem_singleton] at hb
    subst hb
    exact h ha

/-! ## C1: the registry step -/

/-- C1, as stated, fails at the top of the counter and count ranges: from the
counter `4294967295` (what `-initid -1` stores) a new key leaves the counter at
`0`, not `4294967296`; and a record whose count is `2^64 - 1` comes back with
count `0`. -/
theorem lookupOrInsert_wraps :
    (∀ r ∈ ([] : CPLHashSet), r.pszCombination ≠ ['1']) ∧
    initidOfAtoi (-1) = 4294967295 ∧
    (lookupOrInsert ⟨[], initidOfAtoi (-1)⟩ ['1']).1.nCmbID ≠ 4294967295 + 1 ∧
    (lookupOrInsert ⟨[], initidOfAtoi (-1)⟩ ['1']).1.nCmbID = 0 ∧
    (lookupOrInsert ⟨[⟨7, 18446744073709551615, ['1']⟩], 8⟩ ['1']).1.phAllCombination
      = [⟨7, 0, ['1']⟩] := by
  decide

/-- C1 (amended): on a hash set `R` holding at most one record per key, with
counter `c` and key `k`: if `R` holds the record `(i, n, k)` then afterwards the
only record for `k` is `(i, (n+1) mod 2^64, k)`, the counter is still `c` and
`i` is returned; if `R` holds no record for `k` then afterwards the only record
for `k` is `(c, 1, k)`, the counter is `(c+1) mod 2^32` and `c` is returned. In
both cases the records with another key are unchanged, and the set still holds
at most one record per key. -/
theorem lookupOrInsert_contract (R : CPLHashSet) (c : Nat) (k : List Char)
    (hR : (keysOf R).Nodup) :
    (∀ i n, (⟨i, n, k⟩ : Combination) ∈ R →
      (lookupOrInsert ⟨R, c⟩ k).1.phAllCombination.filter
          (fun r => decide (r.pszCombination = k)) = [⟨i, (n + 1) % ULLONG_RANGE, k⟩] ∧
      (lookupOrInsert ⟨R, c⟩ k).1.nCmbID = c ∧
      (lookupOrInsert ⟨R, c⟩ k).2 = i) ∧
    ((∀ r ∈ R, r.pszCombination ≠ k) →
      (lookupOrInsert ⟨R, c⟩ k).1.phAllCombination.filter
          (fun r => decide (r.pszCombination = k)) = [⟨c, 1, k⟩] ∧
      (lookupOrInsert ⟨R, c⟩ k).1.nCmbID = (c + 1) % UINT_RANGE ∧
      (lookupOrInsert ⟨R, c⟩ k).2 = c) ∧
    (lookupOrInsert ⟨R, c⟩ k).1.phAllCombination.filter
        (fun r => decide (r.pszCombination ≠ k))
      = R.filter (fun r => decide (r.pszCombination ≠ k)) ∧
    (keysOf (lookupOrInsert ⟨R, c⟩ k).1.phAllCombination).Nodup := by
  refine ⟨?_, ?_, ?_, ?_⟩
  · intro i n hmem
    have hl : CPLHashSetLookup R ⟨0, 0, k⟩ = some ⟨i, n, k⟩ := lookup_eq_some hR hmem rfl
    unfold lookupOrInsert
    rw [hl]
    exact ⟨insert_filter_eq (⟨i, (n + 1) % ULLONG_RANGE, k⟩ : Combination) hR, rfl, rfl⟩
  · intro hno
    have hl : CPLHashSetLookup R ⟨0, 0, k⟩ = none := lookup_eq_none hno
    unfold lookupOrInsert
    rw [hl]
    exact ⟨insert_filter_eq (⟨c, 1, k⟩ : Combination) hR, rfl, rfl⟩
  · unfold lookupOrInsert
    cases CPLHashSetLookup R ⟨0, 0, k⟩ with
    | none => exact insert_filter_ne R ⟨c, 1, k⟩
    | some elt => exact insert_filter_ne R ⟨elt.nID, (elt.nCount + 1) % ULLONG_RANGE, k⟩
  · unfold lookupOrInsert
    cases CPLHashSetLookup R ⟨0, 0, k⟩ with
    | none => exact keysOf_insert_nodup _ hR
    | some elt => exact keysOf_insert_nodup _ hR

/-- Witness for `lookupOrInsert_contract`: the set holding `(0, 2, "1,5")` and
`(1, 1, "2,5")` with counter 2, at the key `"1,5"`. -/
theorem lookupOrInsert_contract_witness :
    (keysOf [⟨0, 2, ['1', ',', '5']⟩, ⟨1, 1, ['2', ',', '5']⟩]).Nodup ∧
    (lookupOrInsert ⟨[⟨0, 2, ['1', ',', '5']⟩, ⟨1, 1, ['2', ',', '5']⟩], 2⟩
        ['1', ',', '5']).1.phAllCombination.filter
      (fun r => decide (r.pszCombination = ['1', ',', '5']))
      = [⟨0, (2 + 1) % ULLONG_RANGE, ['1', ',', '5']⟩] ∧
    (lookupOrInsert ⟨[⟨0, 2, ['1', ',', '5']⟩, ⟨1, 1, ['2', ',', '5']⟩], 2⟩
        ['1', ',', '5']).1.nCmbID = 2 ∧
    (lookupOrInsert ⟨[⟨0, 2, ['1', ',', '5']⟩, ⟨1, 1, ['2', ',', '5']⟩], 2⟩
        ['1', ',', '5']).2 = 0 :=
  ⟨by decide,
   (lookupOrInsert_contract [⟨0, 2, ['1', ',', '5']⟩, ⟨1, 1, ['2', ',', '5']⟩] 2
      ['1', ',', '5'] (by decide)).1 0 2 (by decide)⟩

/-! ## The registry step along a sequence of keys -/

theorem mem_keysOf_of_mem {set : CPLHashSet} {r : Combination} (h : r ∈ set) :
    r.pszCombination ∈ keysOf set :=
  List.mem_map_of_mem _ h

theorem eq_of_key_eq {set : CPLHashSet} (hnd : (keysOf set).Nodup) {r e : Combination}
    (hr : r ∈ set) (he : e ∈ set) (h : r.pszCombination = e.pszCombination) : r = e :=
  List.inj_on_of_nodup_map hnd hr he h

theorem lookupOrInsert_miss {R : CPLHashSet} {c : Nat} {k : List Char} (h : k ∉ keysOf R) :
    lookupOrInsert ⟨R, c⟩ k = (⟨R ++ [⟨c, 1, k⟩], (c + 1) % UINT_RANGE⟩, c) := by
  have hl : CPLHashSetLookup R ⟨0, 0, k⟩ = none :=
    lookup_eq_none (fun r hr e => h (by
      have e2 : r.pszCombination = k := e
      rw [← e2]
      exact mem_keysOf_of_mem hr))
  have hi : CPLHashSetInsert R ⟨c, 1, k⟩ = R ++ [⟨c, 1, k⟩] := insert_not_mem h
  unfold lookupOrInsert
  rw [hl]
  simp only [hi]

theorem insert_mem_eq_map {set : CPLHashSet} (cmb : Combination) (hnd : (keysOf set).Nodup)
    (h : cmb.pszCombination ∈ keysOf set) :
    CPLHashSetInsert set cmb
      = set.map (fun r => if r.pszCombination = cmb.pszCombination then cmb else r) := by
  induction set with
  | nil => simp [keysOf] at h
  | cons a t ih =>
    have hnd2 : a.pszCombination ∉ keysOf t ∧ (keysOf t).Nodup := by
      simpa [keysOf] using hnd
    by_cases ha : a.pszCombination = cmb.pszCombination
    · have hid : t.map (fun r => if r.pszCombination = cmb.pszCombination then cmb else r) = t := by
        conv_rhs => rw [← List.map_id t]
        apply List.map_congr_left
        intro r hr
        have : r.pszCombination ≠ cmb.pszCombination := by
          intro e
          apply hnd2.1
          rw [ha, ← e]
          exact mem_keysOf_of_mem hr
        simp [this]
      simp [CPLHashSetInsert, CombinationEqualFunc, ha, hid]
    · have ht : cmb.pszCombination ∈ keysOf t := by
        have : cmb.pszCombination = a.pszCombination ∨ cmb.pszCombination ∈ keysOf t := by
          simpa [keysOf] using h
        rcases this with h1 | h1
        · exact absurd h1.symm ha
        · exact h1
      simp [CPLHashSetInsert, CombinationEqualFunc, ha, ih hnd2.2 ht]

theorem lookupOrInsert_hit {R : CPLHashSet} {c : Nat} {k : List Char} (hnd : (keysOf R).Nodup)
    (h : k ∈ keysOf R) :
    ∃ elt ∈ R, elt.pszCombination = k ∧
      lookupOrInsert ⟨R, c⟩ k =
        (⟨R.map (fun r => if r.pszCombination = k
            then ⟨elt.nID, (elt.nCount + 1) % ULLONG_RANGE, k⟩ else r), c⟩, elt.nID) := by
  obtain ⟨elt, helt, hk⟩ := List.mem_map.1 h
  refine ⟨elt, helt, hk, ?_⟩
  have hl : CPLHashSetLookup R ⟨0, 0, k⟩ = some elt := lookup_eq_some hnd helt hk
  have hi := insert_mem_eq_map ⟨elt.nID, (elt.nCount + 1) % ULLONG_RANGE, k⟩ hnd h
  unfold lookupOrInsert
  rw [hl]
  simp only [hi]

theorem firstOccurrence_append_of_mem {k : List Char} {ks ks2 : List (List Char)}
    (h : k ∈ ks) : firstOccurrence k (ks ++ ks2) = firstOccurrence k ks := by
  induction ks with
  | nil => cases h
  | cons a t ih =>
    by_cases ha : a = k
    · simp [firstOccurrence, ha]
    · have ht : k ∈ t := by
        rcases List.mem_cons.1 h with h1 | h1
        · exact absurd h1.symm ha
        · exact h1
      simp [firstOccurrence, ha, ih ht]

theorem firstOccurrence_append_of_not_mem {k : List Char} {ks ks2 : List (List Char)}
    (h : k ∉ ks) : firstOccurrence k (ks ++ ks2) = ks.length + firstOccurrence k ks2 := by
  induction ks with
  | nil => simp
  | cons a t ih =>
    have h2 : ¬ k = a ∧ k ∉ t := by simpa using h
    have ha : ¬ a = k := fun e => h2.1 e.symm
    simp [firstOccurrence, ha, ih h2.2]
    omega

theorem firstOccurrence_lt_length {k : List Char} {ks : List (List Char)} (h : k ∈ ks) :
    firstOccurrence k ks < ks.length := by
  induction ks with
  | nil => cases h
  | cons a t ih =>
    by_cases ha : a = k
    · simp [firstOccurrence, ha]
    · have ht : k ∈ t := by
        rcases List.mem_cons.1 h with h1 | h1
        · exact absurd h1.symm ha
        · exact h1
      simp [firstOccurrence, ha, ih ht]

theorem registerKeys_snoc (st : Registry) (ks : List (List Char)) (k : List Char) :
    registerKeys st (ks ++ [k]) = (lookupOrInsert (registerKeys st ks) k).1 := by
  simp [registerKeys, List.foldl_append]

theorem registerKeys_append (st : Registry) (ks ks2 : List (List Char)) :
    registerKeys st (ks ++ ks2) = registerKeys (registerKeys st ks) ks2 := by
  simp [registerKeys, List.foldl_append]

/-- Invariant of the registry along a scan started from the empty set with
counter `c0`: one record per key seen, held in order of first occurrence, the
`i`-th record having identifier `(c0 + i) mod 2^32`. -/
theorem registerKeys_inv (c0 : Nat) (hc : c0 < UINT_RANGE) (ks : List (List Char)) :
    (keysOf (registerKeys ⟨[], c0⟩ ks).phAllCombination).Nodup ∧
    (∀ k, k ∈ keysOf (registerKeys ⟨[], c0⟩ ks).phAllCombination ↔ k ∈ ks) ∧
    (keysOf (registerKeys ⟨[], c0⟩ ks).phAllCombination).Pairwise
      (fun a b => firstOccurrence a ks < firstOccurrence b ks) ∧
    (registerKeys ⟨[], c0⟩ ks).phAllCombination.map Combination.nID
      = (List.range (registerKeys ⟨[], c0⟩ ks).phAllCombination.length).map
          (fun i => (c0 + i) % UINT_RANGE) ∧
    (registerKeys ⟨[], c0⟩ ks).nCmbID
      = (c0 + (registerKeys ⟨[], c0⟩ ks).phAllCombination.length) % UINT_RANGE := by
  induction ks using List.reverseRecOn with
  | nil =>
    refine ⟨by simp [registerKeys, keysOf], by simp [registerKeys, keysOf],
      by simp [registerKeys, keysOf], by simp [registerKeys], ?_⟩
    simp [registerKeys, Nat.mod_eq_of_lt hc]
  | append_singleton ks k ih =>
    obtain ⟨hnd, hmem, hpw, hid, hcnt⟩ := ih
    rw [registerKeys_snoc]
    generalize registerKeys ⟨[], c0⟩ ks = st at hnd hmem hpw hid hcnt
    obtain ⟨R, c⟩ := st
    simp only at hnd hmem hpw hid hcnt
    by_cases hk : k ∈ keysOf R
    · obtain ⟨elt, helt, hek, hstep⟩ := lookupOrInsert_hit (c := c) hnd hk
      rw [hstep]
      simp only
      have hkeys : keysOf (R.map (fun r => if r.pszCombination = k
            then (⟨elt.nID, (elt.nCount + 1) % ULLONG_RANGE, k⟩ : Combination) else r))
          = keysOf R := by
        simp only [keysOf, List.map_map]
        apply List.map_congr_left
        intro r _
        by_cases hr : r.pszCombination = k <;> simp [hr]
      have hids : (R.map (fun r => if r.pszCombination = k
            then (⟨elt.nID, (elt.nCount + 1) % ULLONG_RANGE, k⟩ : Combination) else r)).map
              Combination.nID = R.map Combination.nID := by
        simp only [List.map_map]
        apply List.map_congr_left
        intro r hr
        by_cases hrk : r.pszCombination = k
        · have : r = elt := eq_of_key_eq hnd hr helt (hrk.trans hek.symm)
          subst this
          simp [hrk]
        · simp [hrk]
      have hkin : k ∈ ks := (hmem k).1 hk
      refine ⟨by rw [hkeys]; exact hnd, ?_, ?_, ?_, ?_⟩
      · intro a
        rw [hkeys, hmem a]
        simp only [List.mem_append, List.mem_singleton]
        constructor
        · intro h; exact Or.inl h
        · rintro (h | h)
          · exact h
          · rw [h]; exact hkin
      · rw [hkeys]
        refine List.Pairwise.imp_of_mem ?_ hpw
        intro a b ha hb hab
        rw [firstOccurrence_append_of_mem ((hmem a).1 ha),
          firstOccurrence_append_of_mem ((hmem b).1 hb)]
        exact hab
      · rw [hids, hid]; simp
      · simpa using hcnt
    · rw [lookupOrInsert_miss hk]
      simp only
      have hkout : k ∉ ks := fun h => hk ((hmem k).2 h)
      refine ⟨?_, ?_, ?_, ?_, ?_⟩
      · simp only [keysOf, List.map_append, List.map_cons, List.map_nil]
        rw [List.nodup_append]
        refine ⟨hnd, List.nodup_singleton _, ?_⟩
        intro a ha hb
        simp only [List.mem_singleton] at hb
        subst hb
        exact hk ha
      · intro a
        have := hmem a
        simp only [keysOf, List.map_append, List.map_cons, List.map_nil, List.mem_append,
          List.mem_singleton] at this ⊢
        rw [this]
      · simp only [keysOf, List.map_append, List.map_cons, List.map_nil]
        rw [List.pairwise_append]
        refine ⟨?_, List.pairwise_singleton _ _, ?_⟩
        · refine List.Pairwise.imp_of_mem ?_ hpw
          intro a b ha hb hab
          rw [firstOccurrence_append_of_mem ((hmem a).1 ha),
            firstOccurrence_append_of_mem ((hmem b).1 hb)]
          exact hab
        · intro a ha b hb
          simp only [List.mem_singleton] at hb
          subst hb
          have ha2 : a ∈ ks := (hmem a).1 ha
          rw [firstOccurrence_append_of_mem ha2, firstOccurrence_append_of_not_mem hkout]
          have := firstOccurrence_lt_length ha2
          omega
      · simp only [List.map_append, List.map_cons, List.map_nil, List.length_append,
          List.length_singleton, List.range_succ]
        rw [hid, hcnt]
      · rw [hcnt]
        simp only [List.length_append, List.length_singleton]
        rw [Nat.mod_add_mod]
        rfl

theorem registerKeys_nID_getElem (c0 : Nat) (hc : c0 < UINT_RANGE) (ks : List (List Char))
    (i : Nat) (h : i < (registerKeys ⟨[], c0⟩ ks).phAllCombination.length) :
    ((registerKeys ⟨[], c0⟩ ks).phAllCombination[i]).nID = (c0 + i) % UINT_RANGE := by
  have hid := (registerKeys_inv c0 hc ks).2.2.2.1
  have h2 := congrArg (fun l => l[i]?) hid
  simp only [List.getElem?_map] at h2
  rw [List.getElem?_eq_getElem h, List.getElem?_range h] at h2
  simpa using h2

theorem registerKeys_length (c0 : Nat) (hc : c0 < UINT_RANGE) (ks : List (List Char)) :
    (registerKeys ⟨[], c0⟩ ks).phAllCombination.length = ks.dedup.length := by
  obtain ⟨hnd, hmem, _, _, _⟩ := registerKeys_inv c0 hc ks
  have hperm : (keysOf (registerKeys ⟨[], c0⟩ ks).phAllCombination).Perm ks.dedup := by
    rw [List.perm_ext_iff_of_nodup hnd (List.nodup_dedup ks)]
    intro a
    rw [hmem a, List.mem_dedup]
  have := hperm.length_eq
  simpa [keysOf] using this

/-- Records of the registry sit in the order of first occurrence of their keys. -/
theorem registerKeys_order (c0 : Nat) (hc : c0 < UINT_RANGE) (ks : List (List Char))
    (r1 r2 : Combination)
    (h1 : r1 ∈ (registerKeys ⟨[], c0⟩ ks).phAllCombination)
    (h2 : r2 ∈ (registerKeys ⟨[], c0⟩ ks).phAllCombination)
    (hlt : firstOccurrence r1.pszCombination ks < firstOccurrence r2.pszCombination ks) :
    ∃ i j, i < j ∧ j < (registerKeys ⟨[], c0⟩ ks).phAllCombination.length ∧
      r1.nID = (c0 + i) % UINT_RANGE ∧ r2.nID = (c0 + j) % UINT_RANGE := by
  obtain ⟨_, _, hpw, _, _⟩ := registerKeys_inv c0 hc ks
  simp only [keysOf, List.pairwise_map] at hpw
  rw [List.pairwise_iff_getElem] at hpw
  obtain ⟨i, hi, hri⟩ := List.getElem_of_mem h1
  obtain ⟨j, hj, hrj⟩ := List.getElem_of_mem h2
  have hij : i < j := by
    rcases Nat.lt_trichotomy i j with h | h | h
    · exact h
    · subst h
      rw [hri] at hrj
      subst hrj
      exact absurd hlt (lt_irrefl _)
    · have := hpw j i hj hi h
      rw [hri, hrj] at this
      omega
  refine ⟨i, j, hij, hj, ?_, ?_⟩
  · rw [← hri]; exact registerKeys_nID_getElem c0 hc ks i hi
  · rw [← hrj]; exact registerKeys_nID_getElem c0 hc ks j hj

/-- The record of the first key of the sequence carries the initial counter. -/
theorem registerKeys_first (c0 : Nat) (hc : c0 < UINT_RANGE) (k0 : List Char)
    (t : List (List Char)) (r : Combination)
    (hr : r ∈ (registerKeys ⟨[], c0⟩ (k0 :: t)).phAllCombination)
    (hk : r.pszCombination = k0) : r.nID = c0 := by
  obtain ⟨_, _, hpw, _, _⟩ := registerKeys_inv c0 hc (k0 :: t)
  simp only [keysOf, List.pairwise_map] at hpw
  rw [List.pairwise_iff_getElem] at hpw
  obtain ⟨i, hi, hri⟩ := List.getElem_of_mem hr
  have hi0 : i = 0 := by
    by_contra hne
    have hpos : 0 < i := Nat.pos_of_ne_zero hne
    have := hpw 0 i (by omega) hi hpos
    rw [hri, hk] at this
    simp [firstOccurrence] at this
  subst hi0
  rw [← hri, registerKeys_nID_getElem c0 hc (k0 :: t) 0 hi]
  simpa using Nat.mod_eq_of_lt hc

theorem registerKeys_nID_nodup (c0 : Nat) (hc : c0 < UINT_RANGE) (ks : List (List Char))
    (hlen : ks.dedup.length ≤ UINT_RANGE) :
    ((registerKeys ⟨[], c0⟩ ks).phAllCombination.map Combination.nID).Nodup := by
  rw [(registerKeys_inv c0 hc ks).2.2.2.1, registerKeys_length c0 hc ks]
  refine List.Nodup.map_on ?_ (List.nodup_range _)
  intro a ha b hb hab
  rw [List.mem_range] at ha hb
  simp only [UINT_RANGE] at hab hlen hc
  omega

/-! ## The scan loop on texts as a run of the registry step -/

theorem rowLoop_reg {R : Type} (sprintfF : R → List Char) (rasters : List (InputRaster R))
    (bOut : Bool) (nYoff : Nat) (st : ScanState) (n : Nat) :
    ((List.range n).foldl (pixelStepText sprintfF rasters bOut nYoff) st).reg
      = registerKeys st.reg ((List.range n).map (pixelKeyText sprintfF rasters nYoff)) := by
  induction n with
  | zero => simp [registerKeys]
  | succ n ih =>
    rw [List.range_succ, List.foldl_append, List.map_append, registerKeys_append, ← ih]
    simp [registerKeys, pixelStepText]

theorem rowStepText_reg {R : Type} (sprintfF : R → List Char) (rasters : List (InputRaster R))
    (bOut : Bool) (nXSize : Nat) (st : ScanState) (nYoff : Nat) :
    (rowStepText sprintfF rasters bOut nXSize st nYoff).reg
      = registerKeys st.reg ((List.range nXSize).map (pixelKeyText sprintfF rasters nYoff)) := by
  unfold rowStepText
  cases bOut <;> simp [rowLoop_reg]

theorem scanText_succ {R : Type} (sprintfF : R → List Char) (rasters : List (InputRaster R))
    (bOut : Bool) (nXSize nYSize initid : Nat) :
    scanText sprintfF rasters bOut nXSize (nYSize + 1) initid
      = rowStepText sprintfF rasters bOut nXSize
          (scanText sprintfF rasters bOut nXSize nYSize initid) nYSize := by
  simp [scanText, List.range_succ, List.foldl_append]

theorem scanKeys_succ {R : Type} (sprintfF : R → List Char) (rasters : List (InputRaster R))
    (nXSize nYSize : Nat) :
    scanKeys sprintfF rasters nXSize (nYSize + 1)
      = scanKeys sprintfF rasters nXSize nYSize
        ++ (List.range nXSize).map (pixelKeyText sprintfF rasters nYSize) := by
  simp [scanKeys, List.range_succ, List.flatMap_append]

theorem scanText_reg {R : Type} (sprintfF : R → List Char) (rasters : List (InputRaster R))
    (bOut : Bool) (nXSize nYSize initid : Nat) :
    (scanText sprintfF rasters bOut nXSize nYSize initid).reg
      = registerKeys ⟨[], initid⟩ (scanKeys sprintfF rasters nXSize nYSize) := by
  induction nYSize with
  | zero => simp [scanText, scanKeys, registerKeys]
  | succ n ih => rw [scanText_succ, rowStepText_reg, ih, scanKeys_succ, registerKeys_append]

theorem scanKeys_length {R : Type} (sprintfF : R → List Char) (rasters : List (InputRaster R))
    (nXSize nYSize : Nat) :
    (scanKeys sprintfF rasters nXSize nYSize).length = nXSize * nYSize := by
  induction nYSize with
  | zero => simp [scanKeys]
  | succ n ih => rw [scanKeys_succ, List.length_append, ih]; simp [Nat.mul_succ]

theorem scanKeys_head {R : Type} (sprintfF : R → List Char) (rasters : List (InputRaster R))
    (nXSize nYSize : Nat) (hW : 0 < nXSize) (hH : 0 < nYSize) :
    ∃ t, scanKeys sprintfF rasters nXSize nYSize = pixelKeyText sprintfF rasters 0 0 :: t := by
  obtain ⟨w, rfl⟩ := Nat.exists_eq_succ_of_ne_zero (Nat.pos_iff_ne_zero.1 hW)
  obtain ⟨h, rfl⟩ := Nat.exists_eq_succ_of_ne_zero (Nat.pos_iff_ne_zero.1 hH)
  simp only [scanKeys, List.range_succ_eq_map, List.flatMap_cons, List.map_cons,
    List.cons_append]
  exact ⟨_, rfl⟩

/-! ## Identifiers, on the texts of the keys -/

/-- On the texts of the keys, buffer sizes aside: for an initial identifier
`initid < 2^32` and a scan of a
`W x H` grid in row-major order: the key of the first pixel has the identifier
`initid`; when the grid has at most `2^32` distinct keys the identifiers in the
registry are pairwise distinct; and when `initid` plus the number of distinct
keys is at most `2^32` (the counter does not wrap), a key whose first occurrence
comes later in row-major order has a strictly larger identifier than a key
first seen before it. -/
theorem scanText_identifiers {R : Type} (sprintfF : R → List Char)
    (rasters : List (InputRaster R)) (bOut : Bool) (nXSize nYSize initid : Nat)
    (hinit : initid < UINT_RANGE) :
    (0 < nXSize → 0 < nYSize →
      ∀ r ∈ (scanText sprintfF rasters bOut nXSize nYSize initid).reg.phAllCombination,
        r.pszCombination = pixelKeyText sprintfF rasters 0 0 → r.nID = initid) ∧
    ((scanKeys sprintfF rasters nXSize nYSize).dedup.length ≤ UINT_RANGE →
      ((scanText sprintfF rasters bOut nXSize nYSize initid).reg.phAllCombination.map
        Combination.nID).Nodup) ∧
    (initid + (scanKeys sprintfF rasters nXSize nYSize).dedup.length ≤ UINT_RANGE →
      ∀ r1 ∈ (scanText sprintfF rasters bOut nXSize nYSize initid).reg.phAllCombination,
      ∀ r2 ∈ (scanText sprintfF rasters bOut nXSize nYSize initid).reg.phAllCombination,
        firstOccurrence r1.pszCombination (scanKeys sprintfF rasters nXSize nYSize)
          < firstOccurrence r2.pszCombination (scanKeys sprintfF rasters nXSize nYSize) →
        r1.nID < r2.nID) := by
  rw [scanText_reg]
  refine ⟨?_, ?_, ?_⟩
  · intro hW hH r hr hk
    obtain ⟨t, ht⟩ := scanKeys_head sprintfF rasters nXSize nYSize hW hH
    rw [ht] at hr
    exact registerKeys_first initid hinit _ t r hr hk
  · intro hlen
    exact registerKeys_nID_nodup initid hinit _ hlen
  · intro hnw r1 h1 r2 h2 hlt
    obtain ⟨i, j, hij, hj, e1, e2⟩ := registerKeys_order initid hinit _ r1 r2 h1 h2 hlt
    rw [registerKeys_length initid hinit] at hj
    rw [e1, e2]
    simp only [UINT_RANGE] at hnw ⊢
    rw [Nat.mod_eq_of_lt (by omega), Nat.mod_eq_of_lt (by omega)]
    omega

/-! ## Count conservation, on the texts of the keys -/

theorem wrapInt32_id {z : Int} (h1 : -2147483648 ≤ z) (h2 : z < 2147483648) :
    wrapInt32 z = z := by
  unfold wrapInt32
  omega

theorem itoaTable_right (r : Nat) (h : r < 10) :
    itoaTable.getD (35 + r) 'z' = Nat.digitChar r := by
  interval_cases r <;> rfl

theorem itoaTable_left (r : Nat) (h : r < 10) :
    itoaTable.getD (35 - r) 'z' = Nat.digitChar r := by
  interval_cases r <;> rfl

theorem tdiv_ten_ofNat (n : Nat) : Int.tdiv (n : Int) 10 = ((n / 10 : Nat) : Int) := rfl

theorem tdiv_ten_neg_ofNat (n : Nat) : Int.tdiv (-(n : Int)) 10 = -((n / 10 : Nat) : Int) := by
  rw [Int.neg_tdiv]
  rfl

/-- One iteration of the loop on a 32-bit value: no intermediate result leaves
the `int` range, the quotient is the truncated quotient and the character
written is the digit of `|value| mod 10`. -/
theorem itoa_iteration (v : Int) (h1 : -2147483648 ≤ v) (h2 : v < 2147483648) :
    wrapInt32 (Int.tdiv v 10) = Int.tdiv v 10 ∧
    itoaTable.getD (35 + wrapInt32 (v - wrapInt32 (Int.tdiv v 10 * 10))).toNat 'z'
      = Nat.digitChar (v.natAbs % 10) ∧
    (Int.tdiv v 10).natAbs = v.natAbs / 10 ∧
    -2147483648 ≤ Int.tdiv v 10 ∧ Int.tdiv v 10 < 2147483648 ∧
    (Int.tdiv v 10 ≠ 0 → (Int.tdiv v 10 < 0 ↔ v < 0)) := by
  obtain ⟨n, rfl | rfl⟩ := Int.eq_nat_or_neg v
  · rw [tdiv_ten_ofNat]
    have hq : wrapInt32 ((n / 10 : Nat) : Int) = ((n / 10 : Nat) : Int) :=
      wrapInt32_id (by omega) (by omega)
    have hm : wrapInt32 (((n / 10 : Nat) : Int) * 10) = ((n / 10 : Nat) : Int) * 10 :=
      wrapInt32_id (by omega) (by omega)
    have hd : wrapInt32 ((n : Int) - ((n / 10 : Nat) : Int) * 10) = ((n % 10 : Nat) : Int) := by
      rw [wrapInt32_id (by omega) (by omega)]
      omega
    refine ⟨hq, ?_, by rw [Int.natAbs_ofNat, Int.natAbs_ofNat], by omega, by omega, by omega⟩
    rw [hm, hd]
    have : (35 + ((n % 10 : Nat) : Int)).toNat = 35 + n % 10 := by omega
    rw [this, Int.natAbs_ofNat]
    exact itoaTable_right _ (Nat.mod_lt _ (by decide))
  · rw [tdiv_ten_neg_ofNat]
    have hq : wrapInt32 (-((n / 10 : Nat) : Int)) = -((n / 10 : Nat) : Int) :=
      wrapInt32_id (by omega) (by omega)
    have hm : wrapInt32 (-((n / 10 : Nat) : Int) * 10) = -((n / 10 : Nat) : Int) * 10 :=
      wrapInt32_id (by omega) (by omega)
    have hd : wrapInt32 (-(n : Int) - -((n / 10 : Nat) : Int) * 10)
        = -((n % 10 : Nat) : Int) := by
      rw [wrapInt32_id (by omega) (by omega)]
      omega
    refine ⟨hq, ?_, by rw [Int.natAbs_neg, Int.natAbs_neg, Int.natAbs_ofNat, Int.natAbs_ofNat],
      by omega, by omega, by omega⟩
    rw [hm, hd]
    have : (35 + -((n % 10 : Nat) : Int)).toNat = 35 - n % 10 := by omega
    rw [this, Int.natAbs_neg, Int.natAbs_ofNat]
    exact itoaTable_left _ (Nat.mod_lt _ (by decide))

/-- The loop of `itoa_` on a 32-bit value writes the decimal digits of
`|value|`, least significant first, within `|value| + 1` iterations, and ends
with a negative `tmp_value` exactly when `value` is negative. -/
theorem itoaLoop_spec (fuel : Nat) :
    ∀ (v : Int), -2147483648 ≤ v → v < 2147483648 → v.natAbs < fuel → ∀ ds : List Char,
      (itoaLoop 10 fuel v).1.reverse ++ ds = Nat.toDigitsCore 10 fuel v.natAbs ds ∧
      ((itoaLoop 10 fuel v).2 < 0 ↔ v < 0) := by
  induction fuel with
  | zero => intro v _ _ h; omega
  | succ fuel ih =>
    intro v h1 h2 hf ds
    obtain ⟨hq, hc, hn, hq1, hq2, hsign⟩ := itoa_iteration v h1 h2
    have hzero : Int.tdiv v 10 = 0 ↔ v.natAbs / 10 = 0 := by
      rw [← hn]; exact Int.natAbs_eq_zero.symm
    have hstep : itoaLoop 10 (fuel + 1) v =
        if Int.tdiv v 10 ≠ 0 then
          (Nat.digitChar (v.natAbs % 10) :: (itoaLoop 10 fuel (Int.tdiv v 10)).1,
            (itoaLoop 10 fuel (Int.tdiv v 10)).2)
        else ([Nat.digitChar (v.natAbs % 10)], v) := by
      simp only [itoaLoop, hq, hc]
    rw [hstep]
    by_cases hv : Int.tdiv v 10 = 0
    · have hn0 : v.natAbs / 10 = 0 := hzero.1 hv
      simp [Nat.toDigitsCore, hv, hn0]
    · have hn0 : ¬ v.natAbs / 10 = 0 := fun h => hv (hzero.2 h)
      have hlt : (Int.tdiv v 10).natAbs < fuel := by rw [hn]; omega
      obtain ⟨e1, e2⟩ := ih (Int.tdiv v 10) hq1 hq2 hlt
        (Nat.digitChar (v.natAbs % 10) :: ds)
      rw [hn] at e1
      simp only [Nat.toDigitsCore, hv, hn0, ne_eq, not_false_eq_true,
        if_false, if_true, List.reverse_cons, List.append_assoc, List.singleton_append]
      exact ⟨e1, e2.trans (hsign hv)⟩

/-- On every 32-bit value `itoa_` with base 10 writes the plain decimal text. -/
theorem itoa_eq_decimalText (v : Int) (h1 : -2147483648 ≤ v) (h2 : v < 2147483648) :
    itoa_ v 10 = decimalText v := by
  obtain ⟨e1, e2⟩ := itoaLoop_spec (v.natAbs + 1) v h1 h2 (Nat.lt_succ_self _) []
  rw [List.append_nil] at e1
  unfold itoa_ decimalText Nat.toDigits
  rw [← e1]
  by_cases hv : v < 0
  · have := e2.2 hv
    simp [this, hv]
  · have : ¬ (itoaLoop 10 (v.natAbs + 1) v).2 < 0 := fun h => hv (e2.1 h)
    simp [this, hv]

/-! ### The decimal digits of a natural number -/

theorem toDigitsCore_append (fuel : Nat) :
    ∀ (n : Nat) (ds : List Char),
      Nat.toDigitsCore 10 fuel n ds = Nat.toDigitsCore 10 fuel n [] ++ ds := by
  induction fuel with
  | zero => intro n ds; simp [Nat.toDigitsCore]
  | succ fuel ih =>
    intro n ds
    by_cases h : n / 10 = 0
    · simp [Nat.toDigitsCore, h]
    · simp only [Nat.toDigitsCore, h, if_false]
      rw [ih (n / 10) (Nat.digitChar (n % 10) :: ds), ih (n / 10) [Nat.digitChar (n % 10)]]
      simp

theorem toDigitsCore_fuel (f1 : Nat) :
    ∀ (f2 n : Nat) (ds : List Char), n < f1 → n < f2 →
      Nat.toDigitsCore 10 f1 n ds = Nat.toDigitsCore 10 f2 n ds := by
  induction f1 with
  | zero => intro f2 n ds h; omega
  | succ f1 ih =>
    intro f2 n ds h1 h2
    obtain ⟨g, rfl⟩ := Nat.exists_eq_succ_of_ne_zero (by omega : f2 ≠ 0)
    by_cases h : n / 10 = 0
    · simp [Nat.toDigitsCore, h]
    · simp only [Nat.toDigitsCore, h, if_false]
      exact ih g (n / 10) _ (by omega) (by omega)

theorem toDigits_lt_ten (n : Nat) (h : n < 10) : Nat.toDigits 10 n = [Nat.digitChar n] := by
  have h0 : n / 10 = 0 := by omega
  have h1 : n % 10 = n := by omega
  simp [Nat.toDigits, Nat.toDigitsCore, h0, h1]

theorem toDigits_ge_ten (n : Nat) (h : 10 ≤ n) :
    Nat.toDigits 10 n = Nat.toDigits 10 (n / 10) ++ [Nat.digitChar (n % 10)] := by
  have h0 : ¬ n / 10 = 0 := by omega
  have e : Nat.toDigits 10 n = Nat.toDigitsCore 10 n (n / 10) [Nat.digitChar (n % 10)] := by
    simp only [Nat.toDigits, Nat.toDigitsCore, h0, if_false]
  rw [e, toDigitsCore_append, toDigitsCore_fuel n (n / 10 + 1) (n / 10) [] (by omega) (by omega)]
  rfl

theorem digitChar_isDecimalDigit (r : Nat) (h : r < 10) :
    isDecimalDigit (Nat.digitChar r) = true := by
  interval_cases r <;> rfl

theorem digitChar_toNat (r : Nat) (h : r < 10) : (Nat.digitChar r).toNat - 48 = r := by
  interval_cases r <;> rfl

theorem digitChar_ne_zero (r : Nat) (h : r < 10) (h0 : r ≠ 0) : Nat.digitChar r ≠ '0' := by
  interval_cases r <;> first | exact absurd rfl h0 | decide

theorem toDigits_ne_nil (n : Nat) : Nat.toDigits 10 n ≠ [] := by
  by_cases h : n < 10
  · rw [toDigits_lt_ten n h]; simp
  · rw [toDigits_ge_ten n (by omega)]; simp

theorem toDigits_all_digits (n : Nat) : ∀ c ∈ Nat.toDigits 10 n, isDecimalDigit c = true := by
  induction n using Nat.strong_induction_on with
  | _ n ih =>
    by_cases h : n < 10
    · rw [toDigits_lt_ten n h]
      intro c hc
      rw [List.mem_singleton] at hc
      rw [hc]
      exact digitChar_isDecimalDigit n h
    · rw [toDigits_ge_ten n (by omega)]
      intro c hc
      rcases List.mem_append.1 hc with hc | hc
      · exact ih (n / 10) (by omega) c hc
      · rw [List.mem_singleton] at hc
        rw [hc]
        exact digitChar_isDecimalDigit _ (Nat.mod_lt _ (by decide))

theorem toDigits_head (n : Nat) (h0 : n ≠ 0) : (Nat.toDigits 10 n).head? ≠ some '0' := by
  induction n using Nat.strong_induction_on with
  | _ n ih =>
    by_cases h : n < 10
    · rw [toDigits_lt_ten n h]
      simpa using digitChar_ne_zero n h h0
    · rw [toDigits_ge_ten n (by omega)]
      have hne := toDigits_ne_nil (n / 10)
      have := ih (n / 10) (by omega) (by omega)
      cases hd : Nat.toDigits 10 (n / 10) with
      | nil => exact absurd hd hne
      | cons a t =>
        rw [hd] at this
        simpa using this

theorem parseNat_toDigits (n : Nat) : parseNat (Nat.toDigits 10 n) = n := by
  induction n using Nat.strong_induction_on with
  | _ n ih =>
    by_cases h : n < 10
    · rw [toDigits_lt_ten n h]
      simp only [parseNat, List.foldl_cons, List.foldl_nil]
      rw [digitChar_toNat n h]
      omega
    · rw [toDigits_ge_ten n (by omega)]
      have := ih (n / 10) (by omega)
      simp only [parseNat, List.foldl_append, List.foldl_cons, List.foldl_nil] at this ⊢
      rw [this, digitChar_toNat _ (Nat.mod_lt _ (by decide))]
      omega

theorem toDigits_injective (m n : Nat) (h : Nat.toDigits 10 m = Nat.toDigits 10 n) : m = n := by
  rw [← parseNat_toDigits m, ← parseNat_toDigits n, h]

/-! ### The `strcat` loop joins the texts with commas -/

theorem intercalate_cons_cons (sep a b : List Char) (l : List (List Char)) :
    sep.intercalate (a :: b :: l) = a ++ sep ++ sep.intercalate (b :: l) := by
  simp [List.intercalate]

theorem intercalate_snoc (sep : List Char) (l : List (List Char)) (t : List Char)
    (h : l ≠ []) : sep.intercalate (l ++ [t]) = sep.intercalate l ++ sep ++ t := by
  induction l with
  | nil => exact absurd rfl h
  | cons a l ih =>
    cases l with
    | nil => simp [List.intercalate]
    | cons b l =>
      have := ih (by simp)
      rw [List.cons_append, List.cons_append, intercalate_cons_cons, ← List.cons_append, this,
        intercalate_cons_cons]
      simp

theorem strcatLoop_upto (szTmp : Nat → List Char) (n : Nat) :
    ∀ m, m ≤ n →
      (List.range m).foldl
        (fun psz i =>
          let psz := psz ++ szTmp i
          if i < n - 1 then psz ++ [','] else psz) []
      = [','].intercalate ((List.range m).map szTmp)
          ++ (if 0 < m ∧ m < n then [','] else []) := by
  intro m
  induction m with
  | zero => intro _; simp [List.intercalate]
  | succ m ih =>
    intro hm
    rw [List.range_succ, List.foldl_append, ih (by omega)]
    simp only [List.foldl_cons, List.foldl_nil, List.map_append, List.map_cons, List.map_nil]
    have hcond : (m < n - 1) ↔ (0 < m + 1 ∧ m + 1 < n) := by omega
    by_cases hm0 : m = 0
    · subst hm0
      by_cases h1 : 0 < n - 1
      · have h2 : 0 < 0 + 1 ∧ 0 + 1 < n := hcond.1 h1
        simp [List.intercalate, h1, h2]
      · have h2 : ¬ (0 < 0 + 1 ∧ 0 + 1 < n) := fun h => h1 (hcond.2 h)
        simp only [h1, h2, if_false]
        simp [List.intercalate]
    · have hne : (List.range m).map szTmp ≠ [] := by
        simp [hm0]
      have hpre : (0 < m ∧ m < n) := by omega
      rw [intercalate_snoc _ _ _ hne]
      by_cases h1 : m < n - 1
      · have h2 : 0 < m + 1 ∧ m + 1 < n := hcond.1 h1
        simp [h1, h2, hpre]
      · have h2 : ¬ (0 < m + 1 ∧ m + 1 < n) := fun h => h1 (hcond.2 h)
        simp [h1, hpre]
        omega

theorem strcatLoop_eq (szTmp : Nat → List Char) (n : Nat) :
    strcatLoop szTmp n = [','].intercalate ((List.range n).map szTmp) := by
  unfold strcatLoop
  rw [strcatLoop_upto szTmp n n (Nat.le_refl n)]
  simp

theorem keyText_eq {R : Type} (sprintfF : R → List Char) (samples : List (Sample R)) :
    keyText sprintfF samples = [','].intercalate (samples.map (sampleText sprintfF)) := by
  unfold keyText
  rw [strcatLoop_eq]
  congr 1
  apply List.ext_getElem?
  intro i
  simp only [List.getElem?_map]
  by_cases hi : i < samples.length
  · simp [List.getElem?_range hi, List.get?_eq_getElem?, List.getElem?_eq_getElem hi]
  · have h1 : (List.range samples.length)[i]? = none := by
      simp [List.getElem?_eq_none_iff]; omega
    have h2 : samples[i]? = none := by
      simp [List.getElem?_eq_none_iff]; omega
    simp [h1, h2]

theorem decimalText_ne_nil (v : Int) : decimalText v ≠ [] := by
  unfold decimalText
  intro h
  exact toDigits_ne_nil _ (List.append_eq_nil.1 h).2

theorem comma_not_mem_decimalText (v : Int) : ',' ∉ decimalText v := by
  unfold decimalText
  intro h
  rcases List.mem_append.1 h with h | h
  · by_cases hv : v < 0
    · simp [hv] at h
    · simp [hv] at h
  · have := toDigits_all_digits _ _ h
    exact absurd this (by decide)

theorem intercalate_head_last (l : List (List Char)) (hl : l ≠ [])
    (hne : ∀ t ∈ l, t ≠ []) (hc : ∀ t ∈ l, ',' ∉ t) :
    ([','].intercalate l).head? ≠ some ',' ∧ ([','].intercalate l).getLast? ≠ some ',' := by
  constructor
  · cases l with
    | nil => exact absurd rfl hl
    | cons a rest =>
      have ha : a ≠ [] := hne a (List.mem_cons_self _ _)
      have hca : ',' ∉ a := hc a (List.mem_cons_self _ _)
      have hhead : ([','].intercalate (a :: rest)).head? = a.head? := by
        cases rest with
        | nil => simp [List.intercalate]
        | cons b rest =>
          rw [intercalate_cons_cons, List.append_assoc, List.head?_append_of_ne_nil _ ha]
      rw [hhead]
      intro h
      exact hca (List.mem_of_mem_head? h)
  · rcases List.eq_nil_or_concat l with h | ⟨init, b, rfl⟩
    · exact absurd h hl
    · have hb : b ≠ [] := hne b (by simp)
      have hcb : ',' ∉ b := hc b (by simp)
      have hlast : ([','].intercalate (init ++ [b])).getLast? = b.getLast? := by
        by_cases hi : init = []
        · subst hi
          simp [List.intercalate]
        · rw [intercalate_snoc _ _ _ hi, List.getLast?_append_of_ne_nil _ hb]
      rw [List.concat_eq_append, hlast]
      intro h
      exact hcb (List.mem_of_mem_getLast? h)

theorem sampleText_int_map {R : Type} (sprintfF : R → List Char) (vs : List Int)
    (hr : ∀ v ∈ vs, -2147483648 ≤ v ∧ v < 2147483648) :
    (vs.map Sample.int).map (sampleText sprintfF) = vs.map decimalText := by
  rw [List.map_map]
  apply List.map_congr_left
  intro v hv
  exact itoa_eq_decimalText v (hr v hv).1 (hr v hv).2

/-- The text of the key: for every tuple of 32-bit signed integer samples (0, negative values
and `INT_MIN` included) the key built by the encoding loop is the plain
decimal texts of the samples joined with `,` in source order; each text is
what `itoa_` writes with base 10, namely an optional `-` followed by decimal
digits only, with no leading zero unless the value is 0; and for a non-empty
tuple the key neither starts nor ends with the separator. -/
theorem keyText_int_samples {R : Type} (sprintfF : R → List Char) (vs : List Int)
    (hr : ∀ v ∈ vs, -2147483648 ≤ v ∧ v < 2147483648) :
    keyText sprintfF (vs.map Sample.int) = joinedDecimalKey vs ∧
    (∀ v ∈ vs, itoa_ v 10 = decimalText v ∧
      (∀ c ∈ Nat.toDigits 10 v.natAbs, isDecimalDigit c = true) ∧
      (v ≠ 0 → (Nat.toDigits 10 v.natAbs).head? ≠ some '0')) ∧
    (vs ≠ [] →
      (keyText sprintfF (vs.map Sample.int)).head? ≠ some ',' ∧
      (keyText sprintfF (vs.map Sample.int)).getLast? ≠ some ',') := by
  have hkey : keyText sprintfF (vs.map Sample.int) = joinedDecimalKey vs := by
    rw [keyText_eq, sampleText_int_map sprintfF vs hr]
    rfl
  refine ⟨hkey, ?_, ?_⟩
  · intro v hv
    refine ⟨itoa_eq_decimalText v (hr v hv).1 (hr v hv).2, toDigits_all_digits _, ?_⟩
    intro h0
    exact toDigits_head _ (fun h => h0 (Int.natAbs_eq_zero.1 h))
  · intro hne
    rw [hkey]
    unfold joinedDecimalKey
    apply intercalate_head_last
    · simpa using hne
    · intro t ht
      obtain ⟨v, _, rfl⟩ := List.mem_map.1 ht
      exact decimalText_ne_nil v
    · intro t ht
      obtain ⟨v, _, rfl⟩ := List.mem_map.1 ht
      exact comma_not_mem_decimalText v

/-! ## Equal key texts -/

theorem getD_mem_or_default (l : List Char) (i : Nat) (d : Char) :
    l.getD i d ∈ l ∨ l.getD i d = d := by
  rw [List.getD_eq_getElem?_getD]
  cases h : l[i]? with
  | none => right; rfl
  | some c =>
    left
    obtain ⟨hi, hc⟩ := List.getElem?_eq_some_iff.1 h
    simp only [Option.getD_some]
    rw [← hc]
    exact List.getElem_mem hi

theorem itoaLoop_mem_table (base : Int) (fuel : Nat) :
    ∀ (v : Int) (c : Char), c ∈ (itoaLoop base fuel v).1 → c ∈ itoaTable := by
  induction fuel with
  | zero => intro v c h; simp [itoaLoop] at h
  | succ fuel ih =>
    intro v c h
    have hz : ('z' : Char) ∈ itoaTable := by decide
    have hg : ∀ i, itoaTable.getD i 'z' ∈ itoaTable := by
      intro i
      rcases getD_mem_or_default itoaTable i 'z' with h | h
      · exact h
      · rw [h]; exact hz
    simp only [itoaLoop] at h
    split at h
    · rcases List.mem_cons.1 h with h | h
      · rw [h]; exact hg _
      · exact ih _ c h
    · rw [List.mem_singleton] at h
      rw [h]; exact hg _

theorem comma_not_mem_itoa (v base : Int) : ',' ∉ itoa_ v base := by
  unfold itoa_
  intro h
  have hnot : (',' : Char) ∉ itoaTable := by decide
  split at h
  · simp at h
  · simp only [List.mem_reverse] at h
    split at h
    · rcases List.mem_append.1 h with h | h
      · exact hnot (itoaLoop_mem_table _ _ _ _ h)
      · simp at h
    · exact hnot (itoaLoop_mem_table _ _ _ _ h)

theorem decimalText_injective (v w : Int) (h : decimalText v = decimalText w) : v = w := by
  have hd : ∀ n : Nat, ∀ t, Nat.toDigits 10 n ≠ '-' :: t := by
    intro n t e
    have := toDigits_all_digits n '-' (by rw [e]; exact List.mem_cons_self _ _)
    exact absurd this (by decide)
  unfold decimalText at h
  by_cases hv : v < 0 <;> by_cases hw : w < 0
  · simp only [hv, hw, if_true, List.singleton_append, List.cons.injEq, true_and] at h
    have := toDigits_injective _ _ h
    omega
  · simp only [hv, hw, if_true, if_false, List.singleton_append, List.nil_append] at h
    exact absurd h.symm (hd _ _)
  · simp only [hv, hw, if_true, if_false, List.singleton_append, List.nil_append] at h
    exact absurd h (hd _ _)
  · simp only [hv, hw, if_false, List.nil_append] at h
    have := toDigits_injective _ _ h
    omega

theorem EQUAL_nil_comma : EQUAL [] [','] = false := by decide

/-- The visitor never changes the record: the string it tests starts at the
terminator, so it is empty and never equal to `","`. -/
theorem WriteDataToCSVForEach_eq (cmb : Combination) :
    WriteDataToCSVForEach cmb = (cmb, csvLine cmb ++ ['\n']) := by
  unfold WriteDataToCSVForEach strlen csvLine
  rw [List.drop_length, EQUAL_nil_comma]
  rfl

theorem CPLHashSetForeach_foldl (set : CPLHashSet) (acc : CPLHashSet × List Char) :
    set.foldl
      (fun acc elt =>
        let r := WriteDataToCSVForEach elt
        (acc.1 ++ [r.1], acc.2 ++ r.2)) acc
      = (acc.1 ++ set, acc.2 ++ (set.map (fun c => csvLine c ++ ['\n'])).flatten) := by
  induction set generalizing acc with
  | nil => simp
  | cons a t ih =>
    rw [List.foldl_cons, ih]
    simp [WriteDataToCSVForEach_eq]

theorem CPLHashSetForeach_eq (set : CPLHashSet) (fp : List Char) :
    CPLHashSetForeach set fp
      = (set, fp ++ (set.map (fun c => csvLine c ++ ['\n'])).flatten) := by
  unfold CPLHashSetForeach
  rw [CPLHashSetForeach_foldl]
  simp

theorem flatten_lines (ls : List (List Char)) :
    (ls.map (fun l => l ++ ['\n'])).flatten = ['\n'].intercalate (ls ++ [[]]) := by
  induction ls with
  | nil => simp [List.intercalate]
  | cons a t ih =>
    cases ht : t ++ [[]] with
    | nil => simp at ht
    | cons b l =>
      rw [List.map_cons, List.flatten_cons, ih, List.cons_append, ht, intercalate_cons_cons]

theorem splitOn_lines (ls : List (List Char)) (h : ∀ l ∈ ls, '\n' ∉ l) :
    (((ls.map (fun l => l ++ ['\n'])).flatten).splitOn '\n').dropLast = ls := by
  rw [flatten_lines, List.splitOn_intercalate _ '\n' _ (by simp)]
  · simp
  · intro l hl
    rcases List.mem_append.1 hl with hl | hl
    · exact h l hl
    · simp only [List.mem_singleton] at hl
      rw [hl]
      simp

theorem mem_itoa (v base : Int) (c : Char) (h : c ∈ itoa_ v base) :
    c ∈ itoaTable ∨ c = '-' := by
  unfold itoa_ at h
  split at h
  · simp at h
  · simp only [List.mem_reverse] at h
    split at h
    · rcases List.mem_append.1 h with h | h
      · exact Or.inl (itoaLoop_mem_table _ _ _ _ h)
      · right; simpa using h
    · exact Or.inl (itoaLoop_mem_table _ _ _ _ h)

theorem newline_not_mem_itoa (v base : Int) : '\n' ∉ itoa_ v base := by
  intro h
  rcases mem_itoa v base _ h with h | h
  · exact absurd h (by decide)
  · exact absurd h (by decide)

theorem newline_not_mem_printfU (n : Nat) : '\n' ∉ printfU n := by
  intro h
  exact absurd (toDigits_all_digits n _ h) (by decide)

theorem comma_not_mem_printfU (n : Nat) : ',' ∉ printfU n := by
  intro h
  exact absurd (toDigits_all_digits n _ h) (by decide)

theorem mem_keysOf_insert (set : CPLHashSet) (cmb : Combination) (a : List Char)
    (h : a ∈ keysOf (CPLHashSetInsert set cmb)) : a ∈ keysOf set ∨ a = cmb.pszCombination := by
  by_cases hk : cmb.pszCombination ∈ keysOf set
  · rw [keysOf_insert_mem hk] at h
    exact Or.inl h
  · rw [insert_not_mem hk] at h
    simpa [keysOf] using h

theorem mem_keysOf_step (st : Registry) (k a : List Char)
    (h : a ∈ keysOf (lookupOrInsert st k).1.phAllCombination) :
    a ∈ keysOf st.phAllCombination ∨ a = k := by
  unfold lookupOrInsert at h
  cases hl : CPLHashSetLookup st.phAllCombination ⟨0, 0, k⟩ with
  | none => rw [hl] at h; exact mem_keysOf_insert _ _ a h
  | some elt => rw [hl] at h; exact mem_keysOf_insert _ _ a h

theorem mem_keysOf_registerKeys (ks : List (List Char)) (st : Registry) (a : List Char)
    (h : a ∈ keysOf (registerKeys st ks).phAllCombination) :
    a ∈ keysOf st.phAllCombination ∨ a ∈ ks := by
  induction ks generalizing st with
  | nil => exact Or.inl h
  | cons k t ih =>
    rcases ih (lookupOrInsert st k).1 h with h1 | h1
    · rcases mem_keysOf_step st k a h1 with h2 | h2
      · exact Or.inl h2
      · right; rw [h2]; exact List.mem_cons_self _ _
    · right; exact List.mem_cons_of_mem _ h1

theorem mem_intercalate (sep : List Char) (l : List (List Char)) (c : Char)
    (h : c ∈ sep.intercalate l) : c ∈ sep ∨ ∃ t ∈ l, c ∈ t := by
  induction l with
  | nil => simp [List.intercalate] at h
  | cons a l ih =>
    cases l with
    | nil =>
      right
      exact ⟨a, List.mem_cons_self _ _, by simpa [List.intercalate] using h⟩
    | cons b l =>
      rw [intercalate_cons_cons] at h
      rcases List.mem_append.1 h with h | h
      · rcases List.mem_append.1 h with h | h
        · exact Or.inr ⟨a, List.mem_cons_self _ _, h⟩
        · exact Or.inl h
      · rcases ih h with h | ⟨t, ht, hin⟩
        · exact Or.inl h
        · exact Or.inr ⟨t, List.mem_cons_of_mem _ ht, hin⟩

theorem pixelKeyText_int {R : Type} (sprintfF : R → List Char) (rasters : List (InputRaster R))
    (hint : ∀ r ∈ rasters, r.bIsIntDataType = true) (y x : Nat) :
    pixelKeyText sprintfF rasters y x
      = [','].intercalate (rasters.map (fun r => itoa_ (r.panBand y x) 10)) := by
  unfold pixelKeyText
  rw [keyText_eq, List.map_map]
  congr 1
  apply List.map_congr_left
  intro r hr
  simp [sampleAt, hint r hr, sampleText]

theorem mem_scanKeys {R : Type} (sprintfF : R → List Char) (rasters : List (InputRaster R))
    (nXSize nYSize : Nat) (k : List Char)
    (h : k ∈ scanKeys sprintfF rasters nXSize nYSize) :
    ∃ y x, k = pixelKeyText sprintfF rasters y x := by
  unfold scanKeys at h
  obtain ⟨y, _, hy⟩ := List.mem_flatMap.1 h
  obtain ⟨x, _, hx⟩ := List.mem_map.1 hy
  exact ⟨y, x, hx.symm⟩

/-- A data line whose key is the comma join of comma-free texts splits back
into the identifier, the count and the texts, and parses to the record. -/
theorem parseLine_csvLine (cmb : Combination) (texts : List (List Char)) (hne : texts ≠ [])
    (hc : ∀ t ∈ texts, ',' ∉ t) (hkey : cmb.pszCombination = [','].intercalate texts) :
    (csvLine cmb).splitOn ',' = printfU cmb.nID :: printfU cmb.nCount :: texts ∧
    parseLine (csvLine cmb) = some (cmb.nID, cmb.nCount, cmb.pszCombination) := by
  have hline : csvLine cmb
      = [','].intercalate (printfU cmb.nID :: printfU cmb.nCount :: texts) := by
    cases texts with
    | nil => exact absurd rfl hne
    | cons t ts =>
      rw [intercalate_cons_cons, intercalate_cons_cons, ← hkey]
      simp [csvLine]
  have hsplit : (csvLine cmb).splitOn ',' = printfU cmb.nID :: printfU cmb.nCount :: texts := by
    rw [hline]
    apply List.splitOn_intercalate _ ','
    · intro l hl
      rcases List.mem_cons.1 hl with h | hl
      · rw [h]; exact comma_not_mem_printfU _
      · rcases List.mem_cons.1 hl with h | hl
        · rw [h]; exact comma_not_mem_printfU _
        · exact hc l hl
    · simp
  refine ⟨hsplit, ?_⟩
  unfold parseLine
  rw [hsplit]
  simp only [printfU, parseNat_toDigits, hkey]

/-- On the texts of the keys, buffer sizes aside: for the registry produced by a
scan of `N >= 1` integer sources, the
data text written by `CPLHashSetForeach` with `WriteDataToCSVForEach` is one
line `<nID>,<nCount>,<pszCombination>` per record, appended to the text already
in the file (the header); each line splits on `,`
into exactly `2 + N` fields and parses back to the record's identifier, count
and key; and parsing the whole data text gives exactly the registry's
(identifier, count, key) triples. -/
theorem scanText_data_lines {R : Type} (sprintfF : R → List Char)
    (rasters : List (InputRaster R)) (bOut : Bool) (nXSize nYSize initid : Nat)
    (hN : 1 ≤ rasters.length) (hint : ∀ r ∈ rasters, r.bIsIntDataType = true) :
    (∀ fp, (CPLHashSetForeach
        (scanText sprintfF rasters bOut nXSize nYSize initid).reg.phAllCombination fp).2
      = fp ++ (((scanText sprintfF rasters bOut nXSize nYSize initid).reg.phAllCombination).map
          (fun c => csvLine c ++ ['\n'])).flatten) ∧
    (∀ c ∈ (scanText sprintfF rasters bOut nXSize nYSize initid).reg.phAllCombination,
      ((csvLine c).splitOn ',').length = 2 + rasters.length ∧
      parseLine (csvLine c) = some (c.nID, c.nCount, c.pszCombination)) ∧
    parseData (CPLHashSetForeach
        (scanText sprintfF rasters bOut nXSize nYSize initid).reg.phAllCombination []).2
      = ((scanText sprintfF rasters bOut nXSize nYSize initid).reg.phAllCombination).map
          (fun c => some (c.nID, c.nCount, c.pszCombination)) := by
  have hkeys : ∀ c ∈ (scanText sprintfF rasters bOut nXSize nYSize initid).reg.phAllCombination,
      ∃ y x, c.pszCombination
        = [','].intercalate (rasters.map (fun r => itoa_ (r.panBand y x) 10)) := by
    intro c hc
    have hmem := mem_keysOf_of_mem hc
    rw [scanText_reg] at hmem
    rcases mem_keysOf_registerKeys _ _ _ hmem with h | h
    · simp [keysOf] at h
    · obtain ⟨y, x, hk⟩ := mem_scanKeys sprintfF rasters nXSize nYSize _ h
      exact ⟨y, x, by rw [hk, pixelKeyText_int sprintfF rasters hint]⟩
  have hparse : ∀ c ∈ (scanText sprintfF rasters bOut nXSize nYSize initid).reg.phAllCombination,
      ((csvLine c).splitOn ',').length = 2 + rasters.length ∧
      parseLine (csvLine c) = some (c.nID, c.nCount, c.pszCombination) := by
    intro c hc
    obtain ⟨y, x, hk⟩ := hkeys c hc
    have hne : rasters.map (fun r => itoa_ (r.panBand y x) 10) ≠ [] := by
      intro e
      have := congrArg List.length e
      rw [List.length_map, List.length_nil] at this
      omega
    have hcomma : ∀ t ∈ rasters.map (fun r => itoa_ (r.panBand y x) 10), ',' ∉ t := by
      intro t ht
      obtain ⟨r, _, rfl⟩ := List.mem_map.1 ht
      exact comma_not_mem_itoa _ _
    obtain ⟨h1, h2⟩ := parseLine_csvLine c _ hne hcomma hk
    refine ⟨?_, h2⟩
    rw [h1]
    simp
    omega
  have hnl : ∀ l ∈ ((scanText sprintfF rasters bOut nXSize nYSize initid).reg.phAllCombination).map
      csvLine, '\n' ∉ l := by
    intro l hl
    obtain ⟨c, hc, rfl⟩ := List.mem_map.1 hl
    obtain ⟨y, x, hk⟩ := hkeys c hc
    intro hmem
    unfold csvLine at hmem
    simp only [List.mem_append, List.mem_singleton] at hmem
    rcases hmem with (((h | h) | h) | h) | h
    · exact newline_not_mem_printfU _ h
    · exact absurd h (by decide)
    · exact newline_not_mem_printfU _ h
    · exact absurd h (by decide)
    · rw [hk] at h
      rcases mem_intercalate _ _ _ h with h1 | ⟨t, ht, hin⟩
      · exact absurd h1 (by decide)
      · obtain ⟨r, _, rfl⟩ := List.mem_map.1 ht
        exact newline_not_mem_itoa _ _ hin
  refine ⟨?_, hparse, ?_⟩
  · intro fp
    rw [CPLHashSetForeach_eq]
  · unfold parseData
    rw [CPLHashSetForeach_eq]
    simp only [List.nil_append]
    have := splitOn_lines _ hnl
    rw [List.map_map] at this
    rw [show (fun c => csvLine c ++ ['\n']) = ((fun l => l ++ ['\n']) ∘ csvLine) from rfl, this,
      List.map_map]
    apply List.map_congr_left
    intro c hc
    exact (hparse c hc).2

/-! ## C9: the progress fraction -/

/-- C9 fails on the code at height 1: after the single row the divisor
`nYSize - 1.0` is zero, so the fraction handed to `pfnProgress` is `0 / 0`, not
`1.0`; the code has no branch for `nYSize = 1`. For a height of 2 or more the
divisor is not zero (here: height 3 gives `0`, `1/2`, `1`). -/
theorem progress_height_one :
    progressDivisor 1 = 0 ∧
    progressArg 0 1 = none ∧
    progressArg 0 1 ≠ some 1 ∧
    progressArg 0 3 = some 0 ∧ progressArg 1 3 = some (1 / 2) ∧ progressArg 2 3 = some 1 := by
  refine ⟨?_, ?_, ?_, ?_, ?_, ?_⟩
  · norm_num [progressDivisor]
  · norm_num [progressArg, progressDivisor]
  · simp [progressArg, progressDivisor]
  · norm_num [progressArg, progressDivisor]
  · norm_num [progressArg, progressDivisor]
  · norm_num [progressArg, progressDivisor]

/-! ## C10: the range-overflow warning (counterexample and the counter on texts) -/

theorem scanText_nCmbID {R : Type} (sprintfF : R → List Char) (rasters : List (InputRaster R))
    (bOut : Bool) (nXSize nYSize initid : Nat) (hinit : initid < UINT_RANGE) :
    (scanText sprintfF rasters bOut nXSize nYSize initid).reg.nCmbID
      = (initid + (scanKeys sprintfF rasters nXSize nYSize).dedup.length) % UINT_RANGE := by
  rw [scanText_reg, (registerKeys_inv initid hinit _).2.2.2.2, registerKeys_length initid hinit]

/-- C10, as stated, fails in quiet mode: with an output raster, 8-bit output
and a final counter of 300 (at least `2^8`), `-q` suppresses the warning. -/
theorem overflowWarning_quiet :
    2 ^ GDALGetDataTypeSize GDALDataType.GDT_Byte ≤ 300 ∧
    overflowWarning true true GDALDataType.GDT_Byte 300 = some false := by
  decide

theorem pixelKeyText_rasterOfRange (n x : Nat) (hx : x < n) (hn : n ≤ 2147483648) :
    pixelKeyText noReal [rasterOfRange n] 0 x = decimalText (x : Int) := by
  have hk : pixelKeyText noReal [rasterOfRange n] 0 x = itoa_ (x : Int) 10 := by
    simp [pixelKeyText, keyText_eq, sampleAt, rasterOfRange, sampleText, hx, List.intercalate]
  rw [hk]
  exact itoa_eq_decimalText _ (by omega) (by omega)

/-- A one-row grid over the source `0, 1, ..., n - 1` has `n` distinct keys. -/
theorem scanKeys_rasterOfRange (n : Nat) (hn : n ≤ 2147483648) :
    (scanKeys noReal [rasterOfRange n] n 1).dedup.length = n := by
  have hnd : (scanKeys noReal [rasterOfRange n] n 1).Nodup := by
    have h1 : List.range 1 = [0] := rfl
    simp only [scanKeys, h1, List.flatMap_cons, List.flatMap_nil, List.append_nil]
    refine List.Nodup.map_on ?_ (List.nodup_range n)
    intro x hx y hy hxy
    rw [List.mem_range] at hx hy
    rw [pixelKeyText_rasterOfRange n x hx hn, pixelKeyText_rasterOfRange n y hy hn] at hxy
    have := decimalText_injective _ _ hxy
    omega
  rw [hnd.dedup, scanKeys_length]
  simp

/-- On the texts of the keys, buffer sizes aside: for every run with an output
raster configured and progress
output not suppressed (no `-q`), with output type Byte or UInt16, the warning is
printed if and only if the final counter `nCmbID` is at least
`2^bits_per_sample`; with `-q` it is never printed. The final counter is the
initial identifier plus the number of distinct combinations, modulo `2^32`; in
particular with 8-bit output, no `-q`, and 300 distinct combinations starting
from identifier 0 the warning is printed. -/
theorem scanText_overflowWarning {R : Type} (sprintfF : R → List Char)
    (rasters : List (InputRaster R)) (nXSize nYSize initid : Nat)
    (hinit : initid < UINT_RANGE) :
    (scanText sprintfF rasters true nXSize nYSize initid).reg.nCmbID
      = (initid + (scanKeys sprintfF rasters nXSize nYSize).dedup.length) % UINT_RANGE ∧
    (∀ t, t = GDALDataType.GDT_Byte ∨ t = GDALDataType.GDT_UInt16 → ∀ n,
      overflowWarning true false t n = some (decide (2 ^ GDALGetDataTypeSize t ≤ n))) ∧
    (∀ t, t = GDALDataType.GDT_Byte ∨ t = GDALDataType.GDT_UInt16 → ∀ n,
      overflowWarning true true t n = some false) ∧
    (initid = 0 → (scanKeys sprintfF rasters nXSize nYSize).dedup.length = 300 →
      overflowWarning true false GDALDataType.GDT_Byte
        (scanText sprintfF rasters true nXSize nYSize initid).reg.nCmbID = some true) := by
  have hcnt := scanText_nCmbID sprintfF rasters true nXSize nYSize initid hinit
  refine ⟨hcnt, ?_, ?_, ?_⟩
  · intro t ht n
    rcases ht with rfl | rfl
    · simp [overflowWarning, shiftLeftOne, GDALGetDataTypeSize]
    · simp [overflowWarning, shiftLeftOne, GDALGetDataTypeSize]
  · intro t ht n
    rcases ht with rfl | rfl <;> simp [overflowWarning]
  · intro h0 h300
    rw [hcnt, h0, h300]
    decide

/-! ## C11: the option `-input_file_list` -/

theorem toLower_eq_dash (c : Char) (h : c.toLower = '-') : c = '-' := by
  unfold Char.toLower at h
  simp only at h
  split at h
  · rename_i hc
    obtain ⟨h1, h2⟩ := hc
    generalize c.toNat = n at h h1 h2
    interval_cases n <;> exact absurd h (by decide)
  · exact h

/-- An argument that `EQUAL` matches with `"-input_file_list"` starts with `-`. -/
theorem head_of_EQUAL_input_file_list (arg : List Char)
    (h : EQUAL arg "-input_file_list".data = true) : arg.head? = some '-' := by
  unfold EQUAL at h
  have h2 : arg.map Char.toLower = "-input_file_list".data := by
    have := of_decide_eq_true h
    rw [this]
    decide
  cases arg with
  | nil => simp at h2
  | cons c t =>
    have hc : c.toLower = '-' := by
      have := congrArg List.head? h2
      simpa using this
    rw [toLower_eq_dash c hc]
    rfl

/-- The body of the option loop never reaches its `-input_file_list` branch:
its result does not depend on the contents of any list file. -/
theorem optionStep_fileLines_unused (atoi : List Char → Int)
    (fileLines : List Char → Option (List (List Char))) (arg : List Char)
    (next : Option (List Char)) (o : Options) :
    optionStep atoi fileLines arg next o = optionStep atoi (fun _ => none) arg next o := by
  cases next with
  | none => rfl
  | some v =>
    unfold optionStep
    simp only
    by_cases hl : EQUAL arg "-input_file_list".data = true
    · have hh := head_of_EQUAL_input_file_list arg hl
      simp only [hh, if_true]
    · simp only [hl]
      rfl

theorem optionLoop_fileLines_unused (atoi : List Char → Int)
    (fileLines : List Char → Option (List (List Char))) (n : Nat) :
    ∀ (args : List (List Char)) (o : Options), args.length ≤ n →
      optionLoop atoi fileLines args o = optionLoop atoi (fun _ => none) args o := by
  induction n with
  | zero =>
    intro args o h
    have : args = [] := List.length_eq_zero.1 (by omega)
    subst this
    rfl
  | succ n ih =>
    intro args o h
    match args, h with
    | [], _ => rfl
    | [arg], _ =>
      simp only [optionLoop, optionStep_fileLines_unused atoi fileLines arg none o]
    | arg :: v :: rest, h =>
      have hlen1 : rest.length ≤ n := by simp at h; omega
      have hlen2 : (v :: rest).length ≤ n := by simp at h ⊢; omega
      simp only [optionLoop, optionStep_fileLines_unused atoi fileLines arg (some v) o]
      cases optionStep atoi (fun _ => none) arg (some v) o with
      | error code => rfl
      | ok r =>
        obtain ⟨o2, b⟩ := r
        cases b with
        | true => exact ih rest o2 hlen1
        | false => exact ih (v :: rest) o2 hlen2

theorem optionStep_input_file_list (atoi : List Char → Int)
    (fileLines : List Char → Option (List (List Char))) (next : Option (List Char))
    (o : Options) :
    optionStep atoi fileLines "-input_file_list".data next o = .error 1 := by
  have h1 : EQUAL "-input_file_list".data "-o".data = false := by decide
  have h2 : EQUAL "-input_file_list".data "-of".data = false := by decide
  have h3 : EQUAL "-input_file_list".data "-ot".data = false := by decide
  have h4 : EQUAL "-input_file_list".data "-initid".data = false := by decide
  have h5 : EQUAL "-input_file_list".data "-csv".data = false := by decide
  have h6 : EQUAL "-input_file_list".data "-co".data = false := by decide
  have h7 : EQUAL "-input_file_list".data "-q".data = false := by decide
  have h8 : EQUAL "-input_file_list".data "-quiet".data = false := by decide
  have h9 : "-input_file_list".data.head? = some '-' := by decide
  cases next with
  | none => simp [optionStep, h7, h8, h9]
  | some v => simp [optionStep, h1, h2, h3, h4, h5, h6, h7, h8, h9]

/-- C11 fails on the code: the test `argv[i][0] == '-'` stands before the test
for `-input_file_list`, so the option is reported as not recognised and the
loop exits with code 1, whatever follows it (here: after `-csv out.csv`, with a
list file of two lines); and on no argument list does the loop append a line of
a list file, its result being the same as when no list file can be opened. -/
theorem optionLoop_rejects_input_file_list (atoi : List Char → Int)
    (fileLines : List Char → Option (List (List Char))) :
    optionLoop atoi (fun _ => some ["a.tif".data, "b.tif".data])
        ["-csv".data, "out.csv".data, "-input_file_list".data, "list.txt".data] initialOptions
      = .error 1 ∧
    (∀ (path : List Char) (rest : List (List Char)) (o : Options),
      optionLoop atoi fileLines ("-input_file_list".data :: path :: rest) o = .error 1) ∧
    (∀ (args : List (List Char)) (o : Options),
      optionLoop atoi fileLines args o = optionLoop atoi (fun _ => none) args o) := by
  refine ⟨?_, ?_, ?_⟩
  · have hcsv : optionStep atoi (fun _ => some ["a.tif".data, "b.tif".data]) "-csv".data
        (some "out.csv".data) initialOptions
        = .ok ({ initialOptions with pszCSVFile := some "out.csv".data }, true) := by
      have h1 : EQUAL "-csv".data "-o".data = false := by decide
      have h2 : EQUAL "-csv".data "-of".data = false := by decide
      have h3 : EQUAL "-csv".data "-ot".data = false := by decide
      have h4 : EQUAL "-csv".data "-initid".data = false := by decide
      have h5 : EQUAL "-csv".data "-csv".data = true := by decide
      simp [optionStep, h1, h2, h3, h4, h5]
    rw [optionLoop, hcsv]
    simp only
    rw [optionLoop, optionStep_input_file_list]
  · intro path rest o
    rw [optionLoop, optionStep_input_file_list]
  · intro args o
    exact optionLoop_fileLines_unused atoi fileLines args.length args o (Nat.le_refl _)

/-! ## The lengths of the texts -/

theorem toDigits_length_le_ten (n : Nat) (h : n < 10000000000) :
    (Nat.toDigits 10 n).length ≤ 10 := by
  unfold Nat.toDigits
  exact Nat.toDigitsCore_length 10 (by decide) (n + 1) n 10 (by norm_num; exact h) (by decide)

theorem decimalText_length (v : Int) (h1 : -2147483648 ≤ v) (h2 : v < 2147483648) :
    (decimalText v).length ≤ 11 := by
  have hd := toDigits_length_le_ten v.natAbs (by omega)
  unfold decimalText
  by_cases hv : v < 0
  · simp only [hv, if_true, List.length_append, List.length_singleton]
    omega
  · simp only [hv, if_false, List.length_append, List.length_nil]
    omega

theorem strcatTrace_upto (szTmp : Nat → List Char) (n : Nat)
    (h : ∀ i, i < n → (szTmp i).length ≤ 11) :
    ∀ m, m ≤ n →
      ((List.range m).foldl
        (fun (acc : List Char × List (List Char)) i =>
          let psz1 := acc.1 ++ szTmp i
          let psz2 := if i < n - 1 then psz1 ++ [','] else psz1
          (psz2, acc.2 ++ [psz1, psz2]))
        ([], [[]])).1
        = (List.range m).foldl
            (fun psz i =>
              let psz := psz ++ szTmp i
              if i < n - 1 then psz ++ [','] else psz) [] ∧
      ((List.range m).foldl
        (fun (acc : List Char × List (List Char)) i =>
          let psz1 := acc.1 ++ szTmp i
          let psz2 := if i < n - 1 then psz1 ++ [','] else psz1
          (psz2, acc.2 ++ [psz1, psz2]))
        ([], [[]])).1.length ≤ 12 * m ∧
      (∀ s ∈ ((List.range m).foldl
        (fun (acc : List Char × List (List Char)) i =>
          let psz1 := acc.1 ++ szTmp i
          let psz2 := if i < n - 1 then psz1 ++ [','] else psz1
          (psz2, acc.2 ++ [psz1, psz2]))
        ([], [[]])).2, s.length + 1 ≤ 12 * n ∨ n = 0) ∧
      ((List.range m).foldl
        (fun (acc : List Char × List (List Char)) i =>
          let psz1 := acc.1 ++ szTmp i
          let psz2 := if i < n - 1 then psz1 ++ [','] else psz1
          (psz2, acc.2 ++ [psz1, psz2]))
        ([], [[]])).1 ∈ ((List.range m).foldl
        (fun (acc : List Char × List (List Char)) i =>
          let psz1 := acc.1 ++ szTmp i
          let psz2 := if i < n - 1 then psz1 ++ [','] else psz1
          (psz2, acc.2 ++ [psz1, psz2]))
        ([], [[]])).2 := by
  intro m
  induction m with
  | zero =>
    intro _
    refine ⟨rfl, by simp, ?_, by simp⟩
    intro s hs
    simp only [List.range_zero, List.foldl_nil, List.mem_singleton] at hs
    subst hs
    simp only [List.length_nil]
    omega
  | succ m ih =>
    intro hm
    obtain ⟨e1, e2, e3, _⟩ := ih (by omega)
    rw [List.range_succ, List.foldl_append, List.foldl_append]
    generalize (List.range m).foldl
        (fun (acc : List Char × List (List Char)) i =>
          let psz1 := acc.1 ++ szTmp i
          let psz2 := if i < n - 1 then psz1 ++ [','] else psz1
          (psz2, acc.2 ++ [psz1, psz2]))
        ([], [[]]) = acc at e1 e2 e3
    rw [← e1]
    have hlen := h m (by omega)
    simp only [List.foldl_cons, List.foldl_nil]
    by_cases hc : m < n - 1
    · simp only [hc, if_true, List.length_append, List.length_singleton, List.mem_append,
        List.mem_cons, List.mem_singleton, List.not_mem_nil, or_false]
      refine ⟨trivial, by omega, ?_, by simp⟩
      rintro s (hs | hs | hs)
      · exact e3 s hs
      · subst hs
        simp only [List.length_append]
        omega
      · subst hs
        simp only [List.length_append, List.length_singleton]
        omega
    · simp only [hc, if_false, List.length_append, List.mem_append,
        List.mem_cons, List.mem_singleton, List.not_mem_nil, or_false, or_self]
      refine ⟨trivial, by omega, ?_, by simp⟩
      rintro s (hs | hs)
      · exact e3 s hs
      · subst hs
        simp only [List.length_append]
        omega

theorem int_text_length {R : Type} (sprintfF : R → List Char) (vs : List Int)
    (hr : ∀ v ∈ vs, -2147483648 ≤ v ∧ v < 2147483648) (i : Nat)
    (hi : i < (vs.map (Sample.int : Int → Sample R)).length) :
    (match (vs.map (Sample.int : Int → Sample R)).get? i with
      | some s => sampleText sprintfF s
      | none => []).length ≤ 11 := by
  rw [List.length_map] at hi
  have hget : (vs.map (Sample.int : Int → Sample R)).get? i = some (Sample.int (vs[i] : Int)) := by
    simp [List.get?_eq_getElem?, List.getElem?_eq_getElem hi]
  rw [hget]
  have hmem : vs[i] ∈ vs := List.getElem_mem hi
  simp only [sampleText]
  rw [itoa_eq_decimalText _ (hr _ hmem).1 (hr _ hmem).2]
  exact decimalText_length _ (hr _ hmem).1 (hr _ hmem).2

theorem encodeKeyTrace_int {R : Type} (sprintfF : R → List Char) (vs : List Int)
    (hr : ∀ v ∈ vs, -2147483648 ≤ v ∧ v < 2147483648) :
    (encodeKeyTrace sprintfF (vs.map Sample.int)).1 = keyText sprintfF (vs.map Sample.int) ∧
    (∀ s ∈ (encodeKeyTrace sprintfF (vs.map Sample.int)).2,
      s.length + 1 ≤ 12 * vs.length ∨ vs.length = 0) ∧
    (encodeKeyTrace sprintfF (vs.map Sample.int)).1
      ∈ (encodeKeyTrace sprintfF (vs.map Sample.int)).2 := by
  obtain ⟨e1, _, e3, e4⟩ := strcatTrace_upto _ (vs.map (Sample.int : Int → Sample R)).length
    (int_text_length sprintfF vs hr) (vs.map (Sample.int : Int → Sample R)).length
    (Nat.le_refl _)
  refine ⟨e1, ?_, e4⟩
  intro s hs
  have := e3 s hs
  simpa using this

/-- Lengths of the texts: for every 32-bit signed integer sample the text `itoa_` writes with
base 10 has at most 11 characters, so with its terminator it fits in the 16
bytes of `szTmp`; and for every tuple of `N >= 1` such samples the finished key
has at most `12*N - 1` characters, and every content of `pszCombination`
during the `strcat` loop, with its terminator, fits in the `N*16` bytes
allocated for it. -/
theorem keyText_fits_buffers {R : Type} (sprintfF : R → List Char) (vs : List Int)
    (hN : 1 ≤ vs.length) (hr : ∀ v ∈ vs, -2147483648 ≤ v ∧ v < 2147483648) :
    (∀ v : Int, -2147483648 ≤ v → v < 2147483648 →
      (itoa_ v 10).length ≤ 11 ∧ (itoa_ v 10).length + 1 ≤ 16) ∧
    (keyText sprintfF (vs.map Sample.int)).length ≤ 12 * vs.length - 1 ∧
    (encodeKeyTrace sprintfF (vs.map Sample.int)).1 = keyText sprintfF (vs.map Sample.int) ∧
    (keyText sprintfF (vs.map Sample.int))
      ∈ (encodeKeyTrace sprintfF (vs.map Sample.int)).2 ∧
    (∀ s ∈ (encodeKeyTrace sprintfF (vs.map Sample.int)).2,
      s.length + 1 ≤ vs.length * 16) := by
  obtain ⟨e1, e3, hlast⟩ := encodeKeyTrace_int sprintfF vs hr
  refine ⟨?_, ?_, e1, ?_, ?_⟩
  · intro v h1 h2
    rw [itoa_eq_decimalText v h1 h2]
    have := decimalText_length v h1 h2
    omega
  · rw [← e1]
    rcases e3 _ hlast with h | h
    · omega
    · omega
  · rw [← e1]
    exact hlast
  · intro s hs
    rcases e3 s hs with h | h
    · omega
    · omega

/-! ## Runs that overrun no buffer -/

theorem wrapInt32_range (z : Int) :
    -2147483648 ≤ wrapInt32 z ∧ wrapInt32 z < 2147483648 := by
  unfold wrapInt32
  omega

/-- On a 32-bit value below `10^k` in magnitude the loop of `itoa_` writes at
most `k` characters, however many iterations it is allowed. -/
theorem itoaLoop_length (fuel : Nat) :
    ∀ (v : Int) (k : Nat), -2147483648 ≤ v → v < 2147483648 → v.natAbs < 10 ^ k → 1 ≤ k →
      (itoaLoop 10 fuel v).1.length ≤ k := by
  induction fuel with
  | zero => intro v k _ _ _ _; simp [itoaLoop]
  | succ fuel ih =>
    intro v k h1 h2 hk hk1
    obtain ⟨hq, hc, hn, hq1, hq2, _⟩ := itoa_iteration v h1 h2
    have hstep : itoaLoop 10 (fuel + 1) v =
        if Int.tdiv v 10 ≠ 0 then
          (Nat.digitChar (v.natAbs % 10) :: (itoaLoop 10 fuel (Int.tdiv v 10)).1,
            (itoaLoop 10 fuel (Int.tdiv v 10)).2)
        else ([Nat.digitChar (v.natAbs % 10)], v) := by
      simp only [itoaLoop, hq, hc]
    rw [hstep]
    by_cases hv : Int.tdiv v 10 = 0
    · simp [hv]
      omega
    · have hpos : 0 < (Int.tdiv v 10).natAbs := Int.natAbs_pos.2 hv
      rw [hn] at hpos
      obtain ⟨j, rfl⟩ : ∃ j, k = j + 1 := ⟨k - 1, by omega⟩
      have hj : 1 ≤ j := by
        by_contra hj0
        have : j = 0 := by omega
        subst this
        simp at hk
        omega
      have hlt : (Int.tdiv v 10).natAbs < 10 ^ j := by
        rw [hn]
        rw [pow_succ] at hk
        omega
      have := ih (Int.tdiv v 10) j hq1 hq2 hlt hj
      simp only [hv, ne_eq, not_false_eq_true, if_true, List.length_cons]
      omega

/-- Whatever integer the model hands to `itoa_`, the text written with base 10
has at most 12 characters. -/
theorem itoa_length_le (v : Int) : (itoa_ v 10).length ≤ 12 := by
  obtain ⟨r1, r2⟩ := wrapInt32_range (Int.tdiv v 10)
  have hin : (itoaLoop 10 v.natAbs (wrapInt32 (Int.tdiv v 10))).1.length ≤ 10 :=
    itoaLoop_length _ _ 10 r1 r2 (by omega) (by decide)
  have hloop : (itoaLoop 10 (v.natAbs + 1) v).1.length ≤ 11 := by
    simp only [itoaLoop]
    split
    · simp only [List.length_cons]
      omega
    · simp
  have h36 : ¬ ((10 : Int) < 2 ∨ (10 : Int) > 36) := by decide
  unfold itoa_
  simp only [h36, if_false, List.length_reverse]
  split
  · simp only [List.length_append, List.length_singleton]
    omega
  · omega

theorem sampleText_int_fits {R : Type} (sprintfF : R → List Char) (v : Int) :
    (sampleText sprintfF (Sample.int v)).length + 1 ≤ SZTMP_SIZE := by
  have := itoa_length_le v
  simp only [sampleText, SZTMP_SIZE]
  omega

/-- A grid of integer sources overruns no buffer. -/
theorem gridFits_of_int {R : Type} (sprintfF : R → List Char) (rasters : List (InputRaster R))
    (nXSize nYSize : Nat) (hint : ∀ r ∈ rasters, r.bIsIntDataType = true) :
    gridFits sprintfF rasters nXSize nYSize := by
  intro y _ x _ r hr
  simp only [sampleAt, hint r hr, if_true]
  exact sampleText_int_fits sprintfF _

theorem foldlM_some {α β : Type} (f : β → α → Option β) (g : β → α → β) (l : List α)
    (init : β) (h : ∀ a ∈ l, ∀ s, f s a = some (g s a)) :
    l.foldlM f init = some (l.foldl g init) := by
  induction l generalizing init with
  | nil => rfl
  | cons a t ih =>
    rw [List.foldlM_cons, h a (List.mem_cons_self _ _) init]
    exact ih (g init a) (fun b hb s => h b (List.mem_cons_of_mem _ hb) s)

theorem foldlM_none {α β : Type} (f : β → α → Option β) (l : List α) (init : β) (a : α)
    (ha : a ∈ l) (h : ∀ s, f s a = none) : l.foldlM f init = none := by
  induction l generalizing init with
  | nil => cases ha
  | cons b t ih =>
    rw [List.foldlM_cons]
    cases hb : f init b with
    | none => rfl
    | some s2 =>
      rcases List.mem_cons.1 ha with e | hin
      · subst e
        rw [h init] at hb
        cases hb
      · exact ih s2 hin

theorem formatSample_of_fits {R : Type} (sprintfF : R → List Char) (s : Sample R)
    (h : (sampleText sprintfF s).length + 1 ≤ SZTMP_SIZE) :
    formatSample sprintfF s = some (sampleText sprintfF s) := by
  unfold formatSample
  rw [if_pos h]

theorem formatSample_overrun {R : Type} (sprintfF : R → List Char) (s : Sample R)
    (h : ¬ (sampleText sprintfF s).length + 1 ≤ SZTMP_SIZE) :
    formatSample sprintfF s = none := by
  unfold formatSample
  rw [if_neg h]

/-- When every text fits in `szTmp`, the first `m` iterations of the key loop
overrun nothing, build what the loop on texts builds and leave at most `16 * m`
characters in the key. -/
theorem encodeKey_upto {R : Type} (sprintfF : R → List Char) (samples : List (Sample R))
    (hfit : ∀ s ∈ samples, (sampleText sprintfF s).length + 1 ≤ SZTMP_SIZE) :
    ∀ m, m ≤ samples.length →
      (List.range m).foldlM
        (fun psz i =>
          match samples.get? i with
          | none => some psz
          | some s =>
            match formatSample sprintfF s with
            | none => none
            | some szTmp =>
              match strcat (samples.length * 16) psz szTmp with
              | none => none
              | some psz =>
                if i < samples.length - 1 then strcat (samples.length * 16) psz [',']
                else some psz)
        []
      = some ((List.range m).foldl
          (fun psz i =>
            let psz := psz ++ (match samples.get? i with
              | some s => sampleText sprintfF s
              | none => [])
            if i < samples.length - 1 then psz ++ [','] else psz) []) ∧
      ((List.range m).foldl
          (fun psz i =>
            let psz := psz ++ (match samples.get? i with
              | some s => sampleText sprintfF s
              | none => [])
            if i < samples.length - 1 then psz ++ [','] else psz) []).length ≤ 16 * m := by
  intro m
  induction m with
  | zero => intro _; exact ⟨rfl, by simp⟩
  | succ m ih =>
    intro hm
    obtain ⟨e1, e2⟩ := ih (by omega)
    rw [List.range_succ, List.foldlM_append, e1, List.foldl_append]
    generalize (List.range m).foldl
          (fun psz i =>
            let psz := psz ++ (match samples.get? i with
              | some s => sampleText sprintfF s
              | none => [])
            if i < samples.length - 1 then psz ++ [','] else psz) [] = acc at e2
    have hlt : m < samples.length := by omega
    have hget : samples.get? m = some (samples[m]) := by
      simp [List.get?_eq_getElem?, List.getElem?_eq_getElem hlt]
    have hlen := hfit _ (List.getElem_mem hlt)
    have hfmt := formatSample_of_fits sprintfF _ hlen
    simp only [SZTMP_SIZE] at hlen
    have hcat : strcat (samples.length * 16) acc (sampleText sprintfF samples[m])
        = some (acc ++ sampleText sprintfF samples[m]) := by
      unfold strcat
      rw [if_pos (by omega)]
    simp only [List.foldlM_cons, List.foldlM_nil, List.foldl_cons, List.foldl_nil, hget, hfmt,
      hcat, Option.some_bind, bind_pure, Option.bind_eq_bind]
    by_cases hc : m < samples.length - 1
    · have hcat2 : strcat (samples.length * 16) (acc ++ sampleText sprintfF samples[m]) [',']
          = some (acc ++ sampleText sprintfF samples[m] ++ [',']) := by
        unfold strcat
        rw [if_pos (by simp only [List.length_append, List.length_singleton]; omega)]
      simp only [hc, if_true, hcat2, List.length_append, List.length_singleton]
      exact ⟨trivial, by omega⟩
    · simp only [hc, if_false, List.length_append]
      exact ⟨trivial, by omega⟩

/-- A tuple whose every text fits in `szTmp` overruns no buffer, and its key is
the text the loop on texts builds. -/
theorem encodeKey_of_fits {R : Type} (sprintfF : R → List Char) (samples : List (Sample R))
    (hfit : ∀ s ∈ samples, (sampleText sprintfF s).length + 1 ≤ SZTMP_SIZE) :
    encodeKey sprintfF samples = some (keyText sprintfF samples) :=
  (encodeKey_upto sprintfF samples hfit samples.length (Nat.le_refl _)).1

/-- A tuple with a text that does not fit in `szTmp` has no key. -/
theorem encodeKey_overrun {R : Type} (sprintfF : R → List Char) (samples : List (Sample R))
    (s : Sample R) (hs : s ∈ samples)
    (h : ¬ (sampleText sprintfF s).length + 1 ≤ SZTMP_SIZE) :
    encodeKey sprintfF samples = none := by
  obtain ⟨i, hi, hget⟩ := List.getElem_of_mem hs
  unfold encodeKey
  apply foldlM_none _ _ _ i (List.mem_range.2 hi)
  intro psz
  have hget2 : samples.get? i = some s := by
    simp [List.get?_eq_getElem?, List.getElem?_eq_getElem hi, hget]
  simp only [hget2, formatSample_overrun sprintfF s h]

theorem pixelKey_of_fits {R : Type} (sprintfF : R → List Char) (rasters : List (InputRaster R))
    (y x : Nat)
    (h : ∀ r ∈ rasters, (sampleText sprintfF (sampleAt r y x)).length + 1 ≤ SZTMP_SIZE) :
    pixelKey sprintfF rasters y x = some (pixelKeyText sprintfF rasters y x) := by
  unfold pixelKey pixelKeyText
  apply encodeKey_of_fits
  intro s hs
  obtain ⟨r, hr, rfl⟩ := List.mem_map.1 hs
  exact h r hr

theorem pixelKey_overrun {R : Type} (sprintfF : R → List Char) (rasters : List (InputRaster R))
    (y x : Nat) (r : InputRaster R) (hr : r ∈ rasters)
    (h : ¬ (sampleText sprintfF (sampleAt r y x)).length + 1 ≤ SZTMP_SIZE) :
    pixelKey sprintfF rasters y x = none := by
  unfold pixelKey
  exact encodeKey_overrun sprintfF _ (sampleAt r y x) (List.mem_map_of_mem _ hr) h

theorem pixelStep_of_fits {R : Type} (sprintfF : R → List Char)
    (rasters : List (InputRaster R)) (bOut : Bool) (y x : Nat)
    (h : ∀ r ∈ rasters, (sampleText sprintfF (sampleAt r y x)).length + 1 ≤ SZTMP_SIZE)
    (st : ScanState) :
    pixelStep sprintfF rasters bOut y st x = some (pixelStepText sprintfF rasters bOut y st x) := by
  unfold pixelStep pixelStepText
  rw [pixelKey_of_fits sprintfF rasters y x h]

theorem pixelStep_overrun {R : Type} (sprintfF : R → List Char)
    (rasters : List (InputRaster R)) (bOut : Bool) (y x : Nat) (r : InputRaster R)
    (hr : r ∈ rasters)
    (h : ¬ (sampleText sprintfF (sampleAt r y x)).length + 1 ≤ SZTMP_SIZE)
    (st : ScanState) :
    pixelStep sprintfF rasters bOut y st x = none := by
  unfold pixelStep
  rw [pixelKey_overrun sprintfF rasters y x r hr h]

theorem rowStep_of_fits {R : Type} (sprintfF : R → List Char)
    (rasters : List (InputRaster R)) (bOut : Bool) (nXSize y : Nat)
    (h : ∀ x, x < nXSize → ∀ r ∈ rasters,
      (sampleText sprintfF (sampleAt r y x)).length + 1 ≤ SZTMP_SIZE)
    (st : ScanState) :
    rowStep sprintfF rasters bOut nXSize st y
      = some (rowStepText sprintfF rasters bOut nXSize st y) := by
  unfold rowStep rowStepText
  rw [foldlM_some (pixelStep sprintfF rasters bOut y) (pixelStepText sprintfF rasters bOut y)
    (List.range nXSize) st
    (fun x hx s => pixelStep_of_fits sprintfF rasters bOut y x (h x (List.mem_range.1 hx)) s)]

theorem rowStep_overrun {R : Type} (sprintfF : R → List Char)
    (rasters : List (InputRaster R)) (bOut : Bool) (nXSize y x : Nat) (hx : x < nXSize)
    (r : InputRaster R) (hr : r ∈ rasters)
    (h : ¬ (sampleText sprintfF (sampleAt r y x)).length + 1 ≤ SZTMP_SIZE)
    (st : ScanState) :
    rowStep sprintfF rasters bOut nXSize st y = none := by
  unfold rowStep
  rw [foldlM_none (pixelStep sprintfF rasters bOut y) (List.range nXSize) st x
    (List.mem_range.2 hx) (pixelStep_overrun sprintfF rasters bOut y x r hr h)]

/-- A scan of a grid whose every text fits in `szTmp` overruns no buffer and
ends in the state the scan on texts computes. -/
theorem scan_of_fits {R : Type} (sprintfF : R → List Char) (rasters : List (InputRaster R))
    (bOut : Bool) (nXSize nYSize initid : Nat)
    (hfit : gridFits sprintfF rasters nXSize nYSize) :
    scan sprintfF rasters bOut nXSize nYSize initid
      = some (scanText sprintfF rasters bOut nXSize nYSize initid) := by
  unfold scan scanText
  exact foldlM_some (rowStep sprintfF rasters bOut nXSize)
    (rowStepText sprintfF rasters bOut nXSize) (List.range nYSize) _
    (fun y hy s => rowStep_of_fits sprintfF rasters bOut nXSize y
      (fun x hx r hr => hfit y (List.mem_range.1 hy) x hx r hr) s)

/-- A scan of a grid with a text that does not fit in `szTmp` has no final
state. -/
theorem scan_overrun {R : Type} (sprintfF : R → List Char) (rasters : List (InputRaster R))
    (bOut : Bool) (nXSize nYSize initid : Nat)
    (hfit : ¬ gridFits sprintfF rasters nXSize nYSize) :
    scan sprintfF rasters bOut nXSize nYSize initid = none := by
  unfold gridFits at hfit
  push_neg at hfit
  obtain ⟨y, hy, x, hx, r, hr, h⟩ := hfit
  unfold scan
  exact foldlM_none (rowStep sprintfF rasters bOut nXSize) (List.range nYSize) _ y
    (List.mem_range.2 hy)
    (rowStep_overrun sprintfF rasters bOut nXSize y x hx r hr (by omega))

/-- In a grid that overruns no buffer the keys the scan builds, pixel by pixel in
row-major order, are the texts listed by `scanKeys`. -/
theorem scanKeys_spec {R : Type} (sprintfF : R → List Char) (rasters : List (InputRaster R))
    (nXSize nYSize : Nat) (hfit : gridFits sprintfF rasters nXSize nYSize) :
    (List.range nYSize).flatMap
        (fun y => (List.range nXSize).map (fun x => pixelKey sprintfF rasters y x))
      = (scanKeys sprintfF rasters nXSize nYSize).map some := by
  unfold scanKeys
  rw [List.map_flatMap]
  apply List.flatMap_congr
  intro y hy
  rw [List.map_map]
  apply List.map_congr_left
  intro x hx
  exact pixelKey_of_fits sprintfF rasters y x
    (fun r hr => hfit y (List.mem_range.1 hy) x (List.mem_range.1 hx) r hr)

theorem mem_scanKeys_iff {R : Type} (sprintfF : R → List Char) (rasters : List (InputRaster R))
    (nXSize nYSize : Nat) (k : List Char) :
    k ∈ scanKeys sprintfF rasters nXSize nYSize ↔
      ∃ y, y < nYSize ∧ ∃ x, x < nXSize ∧ k = pixelKeyText sprintfF rasters y x := by
  unfold scanKeys
  simp only [List.mem_flatMap, List.mem_map, List.mem_range]
  constructor
  · rintro ⟨y, hy, x, hx, rfl⟩
    exact ⟨y, hy, x, hx, rfl⟩
  · rintro ⟨y, hy, x, hx, rfl⟩
    exact ⟨y, hy, x, hx, rfl⟩

/-! # The scan with its buffers -/

/-! ## C2: identifiers -/

/-- C2, as stated, fails when the counter wraps: with `-initid -1` the counter
starts at `4294967295`; on a one-row grid whose two pixels differ the scan ends
with the first key holding `4294967295` and the key first seen later holding
`0`, which is smaller. -/
theorem scan_ids_wrap :
    (scan noReal [rasterOfRow [1, 2]] false 2 1 (initidOfAtoi (-1))).map
        (fun st => st.reg.phAllCombination)
      = some [⟨4294967295, 1, ['1']⟩, ⟨0, 1, ['2']⟩] ∧
    pixelKey noReal [rasterOfRow [1, 2]] 0 0 = some ['1'] ∧
    pixelKey noReal [rasterOfRow [1, 2]] 0 1 = some ['2'] ∧
    firstOccurrence ['1'] (scanKeys noReal [rasterOfRow [1, 2]] 2 1)
      < firstOccurrence ['2'] (scanKeys noReal [rasterOfRow [1, 2]] 2 1) ∧
    ¬ (4294967295 < 0) := by
  decide

/-- C2 (amended): for an initial identifier `initid < 2^32` and a scan of a
`W x H` grid in row-major order that overruns no buffer, the scan ends in a
state whose registry holds exactly one record for the key of every pixel and no
other record, as many records as the grid has distinct keys; the key of the
first pixel has the identifier `initid`; when the grid has at most `2^32`
distinct keys the identifiers in the registry are pairwise distinct; and when
`initid` plus the number of distinct keys is at most `2^32` (the counter does
not wrap), a key whose first occurrence comes later in row-major order has a
strictly larger identifier than a key first seen before it. -/
theorem scan_identifiers {R : Type} (sprintfF : R → List Char)
    (rasters : List (InputRaster R)) (bOut : Bool) (nXSize nYSize initid : Nat)
    (hinit : initid < UINT_RANGE) (hfit : gridFits sprintfF rasters nXSize nYSize) :
    ∃ st, scan sprintfF rasters bOut nXSize nYSize initid = some st ∧
      (List.range nYSize).flatMap
          (fun y => (List.range nXSize).map (fun x => pixelKey sprintfF rasters y x))
        = (scanKeys sprintfF rasters nXSize nYSize).map some ∧
      (∀ y, y < nYSize → ∀ x, x < nXSize →
        ∃ r ∈ st.reg.phAllCombination, pixelKey sprintfF rasters y x = some r.pszCombination) ∧
      (∀ r ∈ st.reg.phAllCombination, ∃ y, y < nYSize ∧ ∃ x, x < nXSize ∧
        pixelKey sprintfF rasters y x = some r.pszCombination) ∧
      (keysOf st.reg.phAllCombination).Nodup ∧
      st.reg.phAllCombination.length = (scanKeys sprintfF rasters nXSize nYSize).dedup.length ∧
      (0 < nXSize → 0 < nYSize →
        ∀ r ∈ st.reg.phAllCombination,
          pixelKey sprintfF rasters 0 0 = some r.pszCombination → r.nID = initid) ∧
      ((scanKeys sprintfF rasters nXSize nYSize).dedup.length ≤ UINT_RANGE →
        (st.reg.phAllCombination.map Combination.nID).Nodup) ∧
      (initid + (scanKeys sprintfF rasters nXSize nYSize).dedup.length ≤ UINT_RANGE →
        ∀ r1 ∈ st.reg.phAllCombination, ∀ r2 ∈ st.reg.phAllCombination,
          firstOccurrence r1.pszCombination (scanKeys sprintfF rasters nXSize nYSize)
            < firstOccurrence r2.pszCombination (scanKeys sprintfF rasters nXSize nYSize) →
          r1.nID < r2.nID) := by
  refine ⟨_, scan_of_fits sprintfF rasters bOut nXSize nYSize initid hfit,
    scanKeys_spec sprintfF rasters nXSize nYSize hfit, ?_, ?_, ?_, ?_, ?_⟩
  · intro y hy x hx
    have hin : pixelKeyText sprintfF rasters y x ∈ scanKeys sprintfF rasters nXSize nYSize :=
      (mem_scanKeys_iff sprintfF rasters nXSize nYSize _).2 ⟨y, hy, x, hx, rfl⟩
    rw [scanText_reg]
    have hmem := ((registerKeys_inv initid hinit _).2.1 _).2 hin
    obtain ⟨r, hr, hk⟩ := List.mem_map.1 hmem
    refine ⟨r, hr, ?_⟩
    rw [pixelKey_of_fits sprintfF rasters y x (fun q hq => hfit y hy x hx q hq), hk]
  · intro r hr
    rw [scanText_reg] at hr
    have hin := ((registerKeys_inv initid hinit _).2.1 _).1 (mem_keysOf_of_mem hr)
    obtain ⟨y, hy, x, hx, hk⟩ := (mem_scanKeys_iff sprintfF rasters nXSize nYSize _).1 hin
    refine ⟨y, hy, x, hx, ?_⟩
    rw [pixelKey_of_fits sprintfF rasters y x (fun q hq => hfit y hy x hx q hq), hk]
  · rw [scanText_reg]
    exact (registerKeys_inv initid hinit _).1
  · rw [scanText_reg]
    exact registerKeys_length initid hinit _
  · obtain ⟨h1, h2, h3⟩ :=
      scanText_identifiers sprintfF rasters bOut nXSize nYSize initid hinit
    refine ⟨?_, h2, h3⟩
    intro hW hH r hr hk
    apply h1 hW hH r hr
    rw [pixelKey_of_fits sprintfF rasters 0 0 (fun q hq => hfit 0 hH 0 hW q hq)] at hk
    exact (Option.some.inj hk).symm

/-- Witness for `scan_identifiers`: one row `[1, 1, 2]` over `[5, 5, 5]`,
initial identifier 0. -/
theorem scan_identifiers_witness :
    (0 : Nat) < UINT_RANGE ∧
    gridFits noReal [rasterOfRow [1, 1, 2], rasterOfRow [5, 5, 5]] 3 1 ∧
    ∃ st, scan noReal [rasterOfRow [1, 1, 2], rasterOfRow [5, 5, 5]] true 3 1 0 = some st ∧
      (∀ y, y < 1 → ∀ x, x < 3 →
        ∃ r ∈ st.reg.phAllCombination,
          pixelKey noReal [rasterOfRow [1, 1, 2], rasterOfRow [5, 5, 5]] y x
            = some r.pszCombination) ∧
      st.reg.phAllCombination.length
        = (scanKeys noReal [rasterOfRow [1, 1, 2], rasterOfRow [5, 5, 5]] 3 1).dedup.length :=
  ⟨by decide, gridFits_of_int _ _ _ _ (by decide),
   let ⟨st, h, _, h2, _, _, h5, _⟩ :=
     scan_identifiers noReal [rasterOfRow [1, 1, 2], rasterOfRow [5, 5, 5]] true 3 1 0
       (by decide) (gridFits_of_int _ _ _ _ (by decide))
   ⟨st, h, h2, h5⟩⟩

/-! ## C3: count conservation -/

theorem int_samples_fit {R : Type} (sprintfF : R → List Char) (vs : List Int) :
    ∀ s ∈ vs.map (Sample.int : Int → Sample R),
      (sampleText sprintfF s).length + 1 ≤ SZTMP_SIZE := by
  intro s hs
  obtain ⟨v, _, rfl⟩ := List.mem_map.1 hs
  exact sampleText_int_fits sprintfF v

/-- C5: for every tuple of 32-bit signed integer samples (0, negative values
and `INT_MIN` included) the encoding loop overruns no buffer and the key it
builds is the plain decimal texts of the samples joined with `,` in source
order; each text is what `itoa_` writes with base 10, namely an optional `-`
followed by decimal digits only, with no leading zero unless the value is 0;
and for a non-empty tuple the key neither starts nor ends with the separator. -/
theorem encodeKey_int_samples {R : Type} (sprintfF : R → List Char) (vs : List Int)
    (hr : ∀ v ∈ vs, -2147483648 ≤ v ∧ v < 2147483648) :
    encodeKey sprintfF (vs.map Sample.int) = some (joinedDecimalKey vs) ∧
    (∀ v ∈ vs, itoa_ v 10 = decimalText v ∧
      (∀ c ∈ Nat.toDigits 10 v.natAbs, isDecimalDigit c = true) ∧
      (v ≠ 0 → (Nat.toDigits 10 v.natAbs).head? ≠ some '0')) ∧
    (vs ≠ [] →
      (joinedDecimalKey vs).head? ≠ some ',' ∧
      (joinedDecimalKey vs).getLast? ≠ some ',') := by
  obtain ⟨h1, h2, h3⟩ := keyText_int_samples sprintfF vs hr
  refine ⟨?_, h2, ?_⟩
  · rw [encodeKey_of_fits sprintfF _ (int_samples_fit sprintfF vs), h1]
  · intro hne
    rw [← h1]
    exact h3 hne

/-- Witness for `encodeKey_int_samples`: the tuple `(0, -2147483648, 2147483647)`. -/
theorem encodeKey_int_samples_witness :
    (∀ v ∈ [(0 : Int), -2147483648, 2147483647], -2147483648 ≤ v ∧ v < 2147483648) ∧
    encodeKey noReal ([(0 : Int), -2147483648, 2147483647].map Sample.int)
      = some (joinedDecimalKey [0, -2147483648, 2147483647]) ∧
    joinedDecimalKey [0, -2147483648, 2147483647] = "0,-2147483648,2147483647".data :=
  ⟨by decide,
   (encodeKey_int_samples noReal [0, -2147483648, 2147483647] (by decide)).1,
   by decide⟩

/-! ## C6: equal keys -/

theorem mem_keysOf_insert_self (set : CPLHashSet) (cmb : Combination) :
    cmb.pszCombination ∈ keysOf (CPLHashSetInsert set cmb) := by
  by_cases hk : cmb.pszCombination ∈ keysOf set
  · rw [keysOf_insert_mem hk]
    exact hk
  · rw [insert_not_mem hk]
    simp [keysOf]

theorem mem_keysOf_insert_of_mem (set : CPLHashSet) (cmb : Combination) (a : List Char)
    (h : a ∈ keysOf set) : a ∈ keysOf (CPLHashSetInsert set cmb) := by
  by_cases hk : cmb.pszCombination ∈ keysOf set
  · rw [keysOf_insert_mem hk]
    exact h
  · rw [insert_not_mem hk]
    simp only [keysOf, List.map_append, List.mem_append]
    exact Or.inl h

theorem mem_keysOf_step_self (st : Registry) (k : List Char) :
    k ∈ keysOf (lookupOrInsert st k).1.phAllCombination := by
  unfold lookupOrInsert
  cases CPLHashSetLookup st.phAllCombination ⟨0, 0, k⟩ with
  | none => exact mem_keysOf_insert_self st.phAllCombination ⟨st.nCmbID, 1, k⟩
  | some elt =>
    exact mem_keysOf_insert_self st.phAllCombination
      ⟨elt.nID, (elt.nCount + 1) % ULLONG_RANGE, k⟩

theorem mem_keysOf_step_of_mem (st : Registry) (k a : List Char)
    (h : a ∈ keysOf st.phAllCombination) :
    a ∈ keysOf (lookupOrInsert st k).1.phAllCombination := by
  unfold lookupOrInsert
  cases CPLHashSetLookup st.phAllCombination ⟨0, 0, k⟩ with
  | none => exact mem_keysOf_insert_of_mem _ _ a h
  | some elt => exact mem_keysOf_insert_of_mem _ _ a h

/-- Every key of the sequence has a record after the run of the registry step. -/
theorem mem_keysOf_registerKeys_of_mem (ks : List (List Char)) (st : Registry) (a : List Char)
    (h : a ∈ keysOf st.phAllCombination ∨ a ∈ ks) :
    a ∈ keysOf (registerKeys st ks).phAllCombination := by
  induction ks generalizing st with
  | nil =>
    rcases h with h | h
    · exact h
    · cases h
  | cons k t ih =>
    apply ih (lookupOrInsert st k).1
    rcases h with h | h
    · exact Or.inl (mem_keysOf_step_of_mem st k a h)
    · rcases List.mem_cons.1 h with e | h2
      · subst e
        exact Or.inl (mem_keysOf_step_self st a)
      · exact Or.inr h2

/-- C7: a scan of `N >= 1` integer sources overruns no buffer, and for the
registry it ends with, the data text written by `CPLHashSetForeach` with
`WriteDataToCSVForEach` is one line `<nID>,<nCount>,<pszCombination>` per
record, appended to the text already in the file (the header); each line splits
on `,` into exactly `2 + N` fields and parses back to the record's identifier,
count and key; parsing the whole data text gives exactly the registry's
(identifier, count, key) triples; and the registry holds a record for the key
of every pixel. -/
theorem csv_data_lines {R : Type} (sprintfF : R → List Char)
    (rasters : List (InputRaster R)) (bOut : Bool) (nXSize nYSize initid : Nat)
    (hN : 1 ≤ rasters.length) (hint : ∀ r ∈ rasters, r.bIsIntDataType = true) :
    ∃ st, scan sprintfF rasters bOut nXSize nYSize initid = some st ∧
      (∀ fp, (CPLHashSetForeach st.reg.phAllCombination fp).2
        = fp ++ ((st.reg.phAllCombination).map (fun c => csvLine c ++ ['\n'])).flatten) ∧
      (∀ c ∈ st.reg.phAllCombination,
        ((csvLine c).splitOn ',').length = 2 + rasters.length ∧
        parseLine (csvLine c) = some (c.nID, c.nCount, c.pszCombination)) ∧
      parseData (CPLHashSetForeach st.reg.phAllCombination []).2
        = (st.reg.phAllCombination).map (fun c => some (c.nID, c.nCount, c.pszCombination)) ∧
      (∀ y, y < nYSize → ∀ x, x < nXSize →
        ∃ c ∈ st.reg.phAllCombination,
          pixelKey sprintfF rasters y x = some c.pszCombination) := by
  have hfit := gridFits_of_int sprintfF rasters nXSize nYSize hint
  obtain ⟨h1, h2, h3⟩ :=
    scanText_data_lines sprintfF rasters bOut nXSize nYSize initid hN hint
  refine ⟨_, scan_of_fits sprintfF rasters bOut nXSize nYSize initid hfit, h1, h2, h3, ?_⟩
  intro y hy x hx
  have hin : pixelKeyText sprintfF rasters y x ∈ scanKeys sprintfF rasters nXSize nYSize :=
    (mem_scanKeys_iff sprintfF rasters nXSize nYSize _).2 ⟨y, hy, x, hx, rfl⟩
  rw [scanText_reg]
  have hmem := mem_keysOf_registerKeys_of_mem _ ⟨[], initid⟩ _ (Or.inr hin)
  obtain ⟨c, hc, hk⟩ := List.mem_map.1 hmem
  refine ⟨c, hc, ?_⟩
  rw [pixelKey_of_fits sprintfF rasters y x (fun q hq => hfit y hy x hx q hq), hk]

/-- Witness for `csv_data_lines`: the sources `A = [1, 1, 2]`, `B = [5, 5, 5]`;
the data text is `0,2,1,5` and `1,1,2,5`. -/
theorem csv_data_lines_witness :
    1 ≤ [rasterOfRow [1, 1, 2], rasterOfRow [5, 5, 5]].length ∧
    (∀ r ∈ [rasterOfRow [1, 1, 2], rasterOfRow [5, 5, 5]], r.bIsIntDataType = true) ∧
    (∃ st, scan noReal [rasterOfRow [1, 1, 2], rasterOfRow [5, 5, 5]] true 3 1 0 = some st ∧
      parseData (CPLHashSetForeach st.reg.phAllCombination []).2
        = (st.reg.phAllCombination).map
            (fun c => some (c.nID, c.nCount, c.pszCombination))) ∧
    (scan noReal [rasterOfRow [1, 1, 2], rasterOfRow [5, 5, 5]] true 3 1 0).map
        (fun st => (CPLHashSetForeach st.reg.phAllCombination []).2)
      = some "0,2,1,5\n1,1,2,5\n".data :=
  ⟨by decide, by decide,
   let ⟨st, h, _, _, h3, _⟩ :=
     csv_data_lines noReal [rasterOfRow [1, 1, 2], rasterOfRow [5, 5, 5]] true 3 1 0
       (by decide) (by decide)
   ⟨st, h, h3⟩,
   by decide⟩

/-! ## C8: the key the CSV visitor emits -/

/-- C10 (amended): for every run with an output raster configured whose scan
overruns no buffer, the scan ends with the counter `nCmbID` at the initial
identifier plus the number of distinct combinations, modulo `2^32`; when
progress output is not suppressed (no `-q`), with output type Byte or UInt16,
the warning is printed if and only if the final counter is at least
`2^bits_per_sample`; with `-q` it is never printed. In particular with 8-bit
output, no `-q`, and 300 distinct combinations starting from identifier 0 the
warning is printed. -/
theorem overflowWarning_spec {R : Type} (sprintfF : R → List Char)
    (rasters : List (InputRaster R)) (nXSize nYSize initid : Nat)
    (hinit : initid < UINT_RANGE) (hfit : gridFits sprintfF rasters nXSize nYSize) :
    ∃ st, scan sprintfF rasters true nXSize nYSize initid = some st ∧
      st.reg.nCmbID
        = (initid + (scanKeys sprintfF rasters nXSize nYSize).dedup.length) % UINT_RANGE ∧
      st.reg.phAllCombination.length = (scanKeys sprintfF rasters nXSize nYSize).dedup.length ∧
      (∀ t, t = GDALDataType.GDT_Byte ∨ t = GDALDataType.GDT_UInt16 → ∀ n,
        overflowWarning true false t n = some (decide (2 ^ GDALGetDataTypeSize t ≤ n))) ∧
      (∀ t, t = GDALDataType.GDT_Byte ∨ t = GDALDataType.GDT_UInt16 → ∀ n,
        overflowWarning true true t n = some false) ∧
      (initid = 0 → (scanKeys sprintfF rasters nXSize nYSize).dedup.length = 300 →
        overflowWarning true false GDALDataType.GDT_Byte st.reg.nCmbID = some true) := by
  obtain ⟨h1, h2, h3, h4⟩ :=
    scanText_overflowWarning sprintfF rasters nXSize nYSize initid hinit
  refine ⟨_, scan_of_fits sprintfF rasters true nXSize nYSize initid hfit, h1, ?_, h2, h3, h4⟩
  rw [scanText_reg]
  exact registerKeys_length initid hinit _

/-- Witness for `overflowWarning_spec`: the one-row grid over the source
`0, 1, ..., 299`, Byte output, initial identifier 0. -/
theorem overflowWarning_spec_witness :
    (0 : Nat) < UINT_RANGE ∧
    gridFits noReal [rasterOfRange 300] 300 1 ∧
    (scanKeys noReal [rasterOfRange 300] 300 1).dedup.length = 300 ∧
    ∃ st, scan noReal [rasterOfRange 300] true 300 1 0 = some st ∧
      st.reg.phAllCombination.length = 300 ∧
      overflowWarning true false GDALDataType.GDT_Byte st.reg.nCmbID = some true :=
  ⟨by decide, gridFits_of_int _ _ _ _ (by decide), scanKeys_rasterOfRange 300 (by decide),
   let ⟨st, h, _, h2, _, _, h5⟩ :=
     overflowWarning_spec noReal [rasterOfRange 300] 300 1 0 (by decide)
       (gridFits_of_int _ _ _ _ (by decide))
   ⟨st, h, h2.trans (scanKeys_rasterOfRange 300 (by decide)),
     h5 rfl (scanKeys_rasterOfRange 300 (by decide))⟩⟩

/-! ## C12: the scratch buffer and the key buffer -/

/-- C12: for every 32-bit signed integer sample the text `itoa_` writes with
base 10 has at most 11 characters, so with its terminator it fits in the 16
bytes of `szTmp`; and for every tuple of `N >= 1` such samples the encoding
loop overruns no buffer, the finished key has at most `12*N - 1` characters,
and every content of `pszCombination` during the `strcat` loop, with its
terminator, fits in the `N*16` bytes allocated for it. -/
theorem key_fits_buffers {R : Type} (sprintfF : R → List Char) (vs : List Int)
    (hN : 1 ≤ vs.length) (hr : ∀ v ∈ vs, -2147483648 ≤ v ∧ v < 2147483648) :
    (∀ v : Int, -2147483648 ≤ v → v < 2147483648 →
      (itoa_ v 10).length ≤ 11 ∧ (itoa_ v 10).length + 1 ≤ 16 ∧
      formatSample sprintfF (Sample.int v) = some (itoa_ v 10)) ∧
    ∃ key, encodeKey sprintfF (vs.map Sample.int) = some key ∧
      key.length ≤ 12 * vs.length - 1 ∧
      (encodeKeyTrace sprintfF (vs.map Sample.int)).1 = key ∧
      key ∈ (encodeKeyTrace sprintfF (vs.map Sample.int)).2 ∧
      (∀ s ∈ (encodeKeyTrace sprintfF (vs.map Sample.int)).2,
        s.length + 1 ≤ vs.length * 16) := by
  obtain ⟨h1, h2, h3, h4, h5⟩ := keyText_fits_buffers sprintfF vs hN hr
  constructor
  · intro v hv1 hv2
    obtain ⟨a, b⟩ := h1 v hv1 hv2
    exact ⟨a, b, formatSample_of_fits sprintfF _ (sampleText_int_fits sprintfF v)⟩
  · exact ⟨_, encodeKey_of_fits sprintfF _ (int_samples_fit sprintfF vs), h2, h3, h4, h5⟩

/-- Witness for `key_fits_buffers`: the tuple `(-2147483648, -2147483648)`,
whose key has exactly `12 * 2 - 1 = 23` characters. -/
theorem key_fits_buffers_witness :
    1 ≤ [(-2147483648 : Int), -2147483648].length ∧
    (∀ v ∈ [(-2147483648 : Int), -2147483648], -2147483648 ≤ v ∧ v < 2147483648) ∧
    (∃ key, encodeKey noReal ([(-2147483648 : Int), -2147483648].map Sample.int) = some key ∧
      key.length ≤ 12 * [(-2147483648 : Int), -2147483648].length - 1) ∧
    (encodeKey noReal ([(-2147483648 : Int), -2147483648].map Sample.int)).map List.length
      = some 23 ∧
    (itoa_ (-2147483648) 10).length = 11 :=
  ⟨by decide, by decide,
   let ⟨key, h, h2, _⟩ :=
     (key_fits_buffers noReal [-2147483648, -2147483648] (by decide) (by decide)).2
   ⟨key, h, h2⟩,
   by decide, by decide⟩

end GdalCombine
